import Mathlib

/-!
# wtl::zlib stream buffers (`zlib.hpp`)

A shallow embedding of `wtl::zlib::Exception`, `wtl::zlib::istreambuf` and
`wtl::zlib::ostreambuf`.

The codec itself (`deflate`, `inflate`, `deflateReset` of `<zlib.h>`) and the
wrapped `std::streambuf` (`sputn`, `sgetn`) are external to `zlib.hpp`; they are
parameters of the embedding (`Deflater`, `Inflater`, `Writer`, `Reader`).
A byte is a number below 256 (`Byte`); a `z_stream` input window `[next_in, next_in + avail_in)`
is the list of bytes in it, and so are the put area `[pbase, pptr)` and the get
area `[gptr, egptr)`.
-/

namespace wtl.zlib

/-! ## Constants of `<zlib.h>` and of `std::char_traits<char>` -/

def Z_OK : Int := 0
def Z_STREAM_END : Int := 1
def Z_STREAM_ERROR : Int := -2
def Z_DATA_ERROR : Int := -3
def Z_MEM_ERROR : Int := -4
def Z_BUF_ERROR : Int := -5
def Z_VERSION_ERROR : Int := -6
def Z_NO_FLUSH : Int := 0
def Z_FINISH : Int := 4

/-- A `char`, by its value as `unsigned char`. -/
abbrev Byte : Type := Fin 256

/-- The constant `SIZE` of both stream buffers. -/
def SIZE : Nat := 4096

/-- The value `traits_type::eof()`. -/
def eof : Int := -1

/-- The conversion `traits_type::to_int_type` (through `unsigned char`). -/
def to_int_type (c : Byte) : Int := (c.val : Int)

/-- The conversion `static_cast<char>(c)` of an `int_type`, as a byte value. -/
def to_char_type (c : Int) : Byte := Fin.ofNat (c % 256).toNat

/-! ## `class Exception` -/

/-- The string built in the constructor `Exception(const z_stream&, int)`;
`msg` is `zstrm.msg`. -/
def Exception.what (msg : String) (ret : Int) : String :=
  let oss := "wtl::zlib::"
  let oss := oss ++
    (if ret = Z_STREAM_ERROR then "Z_STREAM_ERROR: "
     else if ret = Z_DATA_ERROR then "Z_DATA_ERROR: "
     else if ret = Z_MEM_ERROR then "Z_MEM_ERROR: "
     else if ret = Z_BUF_ERROR then "Z_BUF_ERROR: "
     else if ret = Z_VERSION_ERROR then "Z_VERSION_ERROR: "
     else "[" ++ toString ret ++ "]: ")
  oss ++ msg

/-- What a call can throw: `wtl::zlib::Exception` or `std::ios_base::failure`,
each with its `what()` string. -/
inductive Raised where
  | Exception (what : String)
  | ios_failure (what : String)
  deriving DecidableEq, Repr

/-- Outcome of running a piece of the code: it returns, it throws, an `assert`
fails, or the given number of loop iterations was not enough. -/
inductive Run (α : Type) where
  | done (a : α)
  | thrown (e : Raised)
  | assert_failed
  | starved
  deriving DecidableEq, Repr

/-! ## The external collaborators -/

/-- What one call of `deflate()` or `inflate()` did to the `z_stream`: the
returned code, the new internal state, how far `next_in` advanced, the bytes
stored at `next_out`, and `msg` after the call. -/
structure ZStep (σ : Type) where
  ret : Int
  state : σ
  consumed : Nat
  produced : List Byte
  msg : String

/-- The compressor behind `Zstream`: the state after `deflateInit2`, the call
`deflate(&zstrm, flush)` on internal state, input window and `avail_out`, and
`deflateReset`. -/
structure Deflater (σ : Type) where
  init : σ
  deflate : σ → List Byte → Nat → Int → ZStep σ
  deflateReset : σ → σ

/-- The decompressor behind `iz_stream`: the state after `inflateInit2` and the
call `inflate(&zstrm, flush)`. -/
structure Inflater (τ : Type) where
  init : τ
  inflate : τ → List Byte → Nat → Int → ZStep τ

/-- The wrapped output `std::streambuf`: `sputn(s, n)` on the `n` bytes at `s`
returns the new sink and the reported count. -/
structure Writer (ω : Type) where
  sputn : ω → List Byte → ω × Int

/-- The wrapped input `std::streambuf`: `sgetn(s, n)` returns the bytes stored
at `s` (their number is the returned count) and the new source. -/
structure Reader (ρ : Type) where
  sgetn : ρ → Nat → List Byte × ρ

/-! ## `class istreambuf` -/

/-- State of an `istreambuf`: the input window of `zstrm_` (inside `in_buf_`),
the get area `[gptr, egptr)` (inside `out_buf_`), the engine and the source. -/
structure istreambuf (τ ρ : Type) where
  next_in : List Byte
  gbuf : List Byte
  zstrm_ : τ
  reader_ : ρ

/-- The constructor `istreambuf(reader)`: empty get area, `avail_in = 0`. -/
def istreambuf.new {τ ρ : Type} (I : Inflater τ) (reader : ρ) : istreambuf τ ρ :=
  { next_in := [], gbuf := [], zstrm_ := I.init, reader_ := reader }

/-- Lines 83-87 of `underflow()`: read from the source when `avail_in == 0`. -/
def istreambuf.refill {τ ρ : Type} (Rd : Reader ρ) (s : istreambuf τ ρ) : istreambuf τ ρ :=
  if s.next_in.length = 0 then
    let got := Rd.sgetn s.reader_ SIZE
    { s with next_in := got.1, reader_ := got.2 }
  else s

/-- The hook `istreambuf::underflow()`. -/
def istreambuf.underflow {τ ρ : Type} (I : Inflater τ) (Rd : Reader ρ) (s : istreambuf τ ρ) :
    Run (istreambuf τ ρ × Int) :=
  let s1 := s.refill Rd
  let avail_out := SIZE
  let r := I.inflate s1.zstrm_ s1.next_in avail_out Z_NO_FLUSH
  let out := r.produced.take avail_out
  if r.ret ≠ Z_OK ∧ r.ret ≠ Z_STREAM_END then
    Run.thrown (Raised.Exception (Exception.what r.msg r.ret))
  else
    let s2 : istreambuf τ ρ :=
      { s1 with zstrm_ := r.state, next_in := s1.next_in.drop r.consumed, gbuf := out }
    match out with
    | [] => Run.done (s2, eof)
    | c :: _ => Run.done (s2, to_int_type c)

/-- Pulling bytes until end-of-stream, as `std::streambuf::sbumpc` does it: a
byte of the get area is taken and `gptr` advanced; with an empty get area
`underflow()` is called first, and `eof` ends the pull. -/
def istreambuf.readAll {τ ρ : Type} (I : Inflater τ) (Rd : Reader ρ) :
    Nat → istreambuf τ ρ → Run (List Byte)
  | 0, _ => Run.starved
  | fuel + 1, s =>
    match s.gbuf with
    | c :: rest =>
      match istreambuf.readAll I Rd fuel { s with gbuf := rest } with
      | Run.done l => Run.done (c :: l)
      | Run.thrown e => Run.thrown e
      | Run.assert_failed => Run.assert_failed
      | Run.starved => Run.starved
    | [] =>
      match s.underflow I Rd with
      | Run.done (s1, v) =>
        if v = eof then Run.done []
        else
          match s1.gbuf with
          | [] => Run.done []
          | c :: rest =>
            match istreambuf.readAll I Rd fuel { s1 with gbuf := rest } with
            | Run.done l => Run.done (c :: l)
            | Run.thrown e => Run.thrown e
            | Run.assert_failed => Run.assert_failed
            | Run.starved => Run.starved
      | Run.thrown e => Run.thrown e
      | Run.assert_failed => Run.assert_failed
      | Run.starved => Run.starved

/-! ## `class ostreambuf` -/

/-- Calls the `ostreambuf` makes on its collaborators, in the order made; kept
in the state as a record of the run (it does not influence the run). -/
inductive Event where
  | set_input (window : List Byte)
  | deflate (flush : Int) (window : List Byte) (ret : Int) (consumed : Nat) (out : List Byte)
  | sputn (bytes : List Byte) (written : Int)
  | deflateReset
  deriving DecidableEq, Repr

/-- State of an `ostreambuf`: the put area `[pbase, pptr)` (inside `in_buf_`,
`epptr = pbase + SIZE`), the input window of `zstrm_`, the engine, the sink,
and the record of calls made. -/
structure ostreambuf (σ ω : Type) where
  pbuf : List Byte
  next_in : List Byte
  zstrm_ : σ
  writer_ : ω
  trace : List Event

/-- The constructor `ostreambuf(writer)`: empty put area of capacity `SIZE`. -/
def ostreambuf.new {σ ω : Type} (D : Deflater σ) (writer : ω) : ostreambuf σ ω :=
  { pbuf := [], next_in := [], zstrm_ := D.init, writer_ := writer, trace := [] }

/-- The member `ostreambuf::deflate_write(flush)`. -/
def ostreambuf.deflate_write {σ ω : Type} (D : Deflater σ) (Wr : Writer ω) (flush : Int)
    (s : ostreambuf σ ω) : Run (ostreambuf σ ω × Int) :=
  let avail_out := SIZE
  let r := D.deflate s.zstrm_ s.next_in avail_out flush
  let out := r.produced.take avail_out
  let avail_out := avail_out - out.length
  let s1 : ostreambuf σ ω :=
    { s with zstrm_ := r.state, next_in := s.next_in.drop r.consumed,
             trace := s.trace ++ [Event.deflate flush s.next_in r.ret r.consumed out] }
  if r.ret ≠ Z_OK ∧ r.ret ≠ Z_STREAM_END ∧ r.ret ≠ Z_BUF_ERROR then
    Run.thrown (Raised.Exception (Exception.what r.msg r.ret))
  else
    let writing : Int := (SIZE : Int) - (avail_out : Int)
    let bytes := out.take writing.toNat
    let w := Wr.sputn s1.writer_ bytes
    let written := w.2
    if written ≠ writing then
      Run.thrown (Raised.ios_failure "wtl::zlib: written != writing")
    else
      Run.done ({ s1 with writer_ := w.1, trace := s1.trace ++ [Event.sputn bytes written] }, r.ret)

/-- The loop `while (zstrm_.avail_in > 0) deflate_write(Z_NO_FLUSH);` of
`overflow`, with a bound on the number of iterations. -/
def ostreambuf.drain {σ ω : Type} (D : Deflater σ) (Wr : Writer ω) :
    Nat → ostreambuf σ ω → Run (ostreambuf σ ω)
  | 0, s => if s.next_in.length > 0 then Run.starved else Run.done s
  | fuel + 1, s =>
    if s.next_in.length > 0 then
      match s.deflate_write D Wr Z_NO_FLUSH with
      | Run.done (s1, _) => ostreambuf.drain D Wr fuel s1
      | Run.thrown e => Run.thrown e
      | Run.assert_failed => Run.assert_failed
      | Run.starved => Run.starved
    else Run.done s

/-- Lines 157-158 of `overflow`: the put area becomes the input window of
`zstrm_`. -/
def ostreambuf.set_input {σ ω : Type} (s : ostreambuf σ ω) : ostreambuf σ ω :=
  { s with next_in := s.pbuf, trace := s.trace ++ [Event.set_input s.pbuf] }

/-- The hook `ostreambuf::overflow(c)`. After `setp(in_buf_, in_buf_ + SIZE)` the
put area is empty and has room, so the closing `sputc` stores its byte. -/
def ostreambuf.overflow {σ ω : Type} (D : Deflater σ) (Wr : Writer ω) (fuel : Nat)
    (c : Int) (s : ostreambuf σ ω) : Run (ostreambuf σ ω × Int) :=
  match ostreambuf.drain D Wr fuel s.set_input with
  | Run.done s2 =>
    let s3 : ostreambuf σ ω := { s2 with pbuf := [] }
    if c = eof then Run.done (s3, eof)
    else Run.done ({ s3 with pbuf := s3.pbuf ++ [to_char_type c] }, to_int_type (to_char_type c))
  | Run.thrown e => Run.thrown e
  | Run.assert_failed => Run.assert_failed
  | Run.starved => Run.starved

/-- The inherited `std::streambuf::sputc(c)`: store the byte while
`pptr < epptr`, otherwise call `overflow(to_int_type(c))`. -/
def ostreambuf.sputc {σ ω : Type} (D : Deflater σ) (Wr : Writer ω) (fuel : Nat)
    (c : Byte) (s : ostreambuf σ ω) : Run (ostreambuf σ ω × Int) :=
  if s.pbuf.length < SIZE then
    Run.done ({ s with pbuf := s.pbuf ++ [c] }, to_int_type c)
  else s.overflow D Wr fuel (to_int_type c)

/-- Pushing a byte sequence, one `sputc` after the other. -/
def ostreambuf.sputn {σ ω : Type} (D : Deflater σ) (Wr : Writer ω) (fuel : Nat) :
    List Byte → ostreambuf σ ω → Run (ostreambuf σ ω)
  | [], s => Run.done s
  | c :: cs, s =>
    match s.sputc D Wr fuel c with
    | Run.done (s1, _) => ostreambuf.sputn D Wr fuel cs s1
    | Run.thrown e => Run.thrown e
    | Run.assert_failed => Run.assert_failed
    | Run.starved => Run.starved

/-- The loop `while (deflate_write(Z_FINISH) != Z_STREAM_END) {;}` of `sync`,
with a bound on the number of iterations. -/
def ostreambuf.finish {σ ω : Type} (D : Deflater σ) (Wr : Writer ω) :
    Nat → ostreambuf σ ω → Run (ostreambuf σ ω)
  | 0, _ => Run.starved
  | fuel + 1, s =>
    match s.deflate_write D Wr Z_FINISH with
    | Run.done (s1, ret) =>
      if ret ≠ Z_STREAM_END then ostreambuf.finish D Wr fuel s1 else Run.done s1
    | Run.thrown e => Run.thrown e
    | Run.assert_failed => Run.assert_failed
    | Run.starved => Run.starved

/-- The hook `ostreambuf::sync()`. -/
def ostreambuf.sync {σ ω : Type} (D : Deflater σ) (Wr : Writer ω) (fuel : Nat)
    (s : ostreambuf σ ω) : Run (ostreambuf σ ω × Int) :=
  match s.overflow D Wr fuel eof with
  | Run.done (s1, _) =>
    if s1.next_in.length = 0 then
      match ostreambuf.finish D Wr fuel s1 with
      | Run.done s2 =>
        Run.done ({ s2 with zstrm_ := D.deflateReset s2.zstrm_,
                            trace := s2.trace ++ [Event.deflateReset] }, 0)
      | Run.thrown e => Run.thrown e
      | Run.assert_failed => Run.assert_failed
      | Run.starved => Run.starved
    else Run.assert_failed
  | Run.thrown e => Run.thrown e
  | Run.assert_failed => Run.assert_failed
  | Run.starved => Run.starved

/-- The destructor body `~ostreambuf() {sync();}`: there is no handler, so what
`sync()` throws leaves the destructor body (the destructor being `noexcept` by
default, the program then ends in `std::terminate`). -/
def ostreambuf.destroy {σ ω : Type} (D : Deflater σ) (Wr : Writer ω) (fuel : Nat)
    (s : ostreambuf σ ω) : Run Unit :=
  match s.sync D Wr fuel with
  | Run.done _ => Run.done ()
  | Run.thrown e => Run.thrown e
  | Run.assert_failed => Run.assert_failed
  | Run.starved => Run.starved

/-! ## Concrete collaborators

A sink and a source over a byte list, a sink that accepts a bounded number of
bytes per call, and a small codec with the calling convention of zlib, used to
run the stream buffers on concrete inputs. -/

/-- A sink that stores every byte, like `std::stringbuf`. -/
def stringWriter : Writer (List Byte) where
  sputn := fun sink bytes => (sink ++ bytes, (bytes.length : Int))

/-- A source over a byte list, like `std::stringbuf`. -/
def stringReader : Reader (List Byte) where
  sgetn := fun src n => (src.take n, src.drop n)

/-- A sink that accepts at most `k` bytes per call. -/
def shortWriter (k : Nat) : Writer (List Byte) where
  sputn := fun sink bytes => (sink ++ bytes.take k, ((bytes.take k).length : Int))

namespace stored

/-- Frame body of the stored codec: every byte `b` becomes the pair `1, b`. -/
def enc : List Byte → List Byte
  | [] => []
  | b :: bs => 1 :: b :: enc bs

/-- A compressor in the stored format: a frame is `enc` of the plaintext followed
by the end marker `0`. The state says whether the frame has been finished; a
call on a finished stream is a stream error, as in zlib. -/
def deflater : Deflater Bool where
  init := false
  deflate := fun fin w avail_out flush =>
    if fin then
      { ret := Z_STREAM_ERROR, state := fin, consumed := 0, produced := [], msg := "stream error" }
    else
      let n := min w.length (avail_out / 2)
      let out := enc (w.take n)
      if flush = Z_FINISH ∧ n = w.length ∧ out.length < avail_out then
        { ret := Z_STREAM_END, state := true, consumed := n, produced := out ++ [0], msg := "" }
      else if n = 0 then
        { ret := Z_BUF_ERROR, state := false, consumed := 0, produced := [], msg := "" }
      else
        { ret := Z_OK, state := false, consumed := n, produced := out, msg := "" }
  deflateReset := fun _ => false

/-- Decoding of whole symbols of the stored format from a window into at most
`cap` bytes: code, bytes consumed, bytes produced, end marker seen. -/
def decode : List Byte → Nat → Int × Nat × List Byte × Bool
  | [], _ => (Z_OK, 0, [], false)
  | [m], _ =>
    if m = 0 then (Z_STREAM_END, 1, [], true)
    else if m = 1 then (Z_OK, 0, [], false)
    else (Z_DATA_ERROR, 0, [], false)
  | m :: _ :: _, 0 =>
    if m = 0 then (Z_STREAM_END, 1, [], true)
    else if m = 1 then (Z_OK, 0, [], false)
    else (Z_DATA_ERROR, 0, [], false)
  | m :: b :: rest, cap + 1 =>
    if m = 0 then (Z_STREAM_END, 1, [], true)
    else if m = 1 then
      let r := decode rest cap
      (r.1, r.2.1 + 2, b :: r.2.2.1, r.2.2.2)
    else (Z_DATA_ERROR, 0, [], false)

/-- A decompressor for the stored format. Once the end marker has been read the
stream stays at `Z_STREAM_END` and takes no more input, as zlib does after the
trailer of a frame; a call that can neither consume nor produce is `Z_BUF_ERROR`. -/
def inflater : Inflater Bool where
  init := false
  inflate := fun fin w avail_out _ =>
    if fin then
      { ret := Z_STREAM_END, state := true, consumed := 0, produced := [], msg := "" }
    else
      let r := decode w avail_out
      if r.1 = Z_DATA_ERROR then
        { ret := Z_DATA_ERROR, state := false, consumed := r.2.1, produced := r.2.2.1,
          msg := "invalid block type" }
      else if r.1 = Z_OK ∧ r.2.1 = 0 then
        { ret := Z_BUF_ERROR, state := false, consumed := 0, produced := [], msg := "" }
      else
        { ret := r.1, state := r.2.2.2, consumed := r.2.1, produced := r.2.2.1, msg := "" }

end stored

/-! ## Runs of both stream buffers over a byte list -/

/-- Push `x` through a new `ostreambuf` over an empty `stringWriter` sink and
finalize it with `sync()`; the result is the content of the sink. -/
def compress {σ : Type} (D : Deflater σ) (fuel : Nat) (x : List Byte) : Run (List Byte) :=
  match ostreambuf.sputn D stringWriter fuel x (ostreambuf.new D []) with
  | Run.done s =>
    match s.sync D stringWriter fuel with
    | Run.done (s1, _) => Run.done s1.writer_
    | Run.thrown e => Run.thrown e
    | Run.assert_failed => Run.assert_failed
    | Run.starved => Run.starved
  | Run.thrown e => Run.thrown e
  | Run.assert_failed => Run.assert_failed
  | Run.starved => Run.starved

/-- Push `a`, `sync()`, push `b`, `sync()` on one `ostreambuf` over an empty
`stringWriter` sink; the result is the content of the sink. -/
def compress2 {σ : Type} (D : Deflater σ) (fuel : Nat) (a b : List Byte) : Run (List Byte) :=
  match ostreambuf.sputn D stringWriter fuel a (ostreambuf.new D []) with
  | Run.done s =>
    match s.sync D stringWriter fuel with
    | Run.done (s1, _) =>
      match ostreambuf.sputn D stringWriter fuel b s1 with
      | Run.done s2 =>
        match s2.sync D stringWriter fuel with
        | Run.done (s3, _) => Run.done s3.writer_
        | Run.thrown e => Run.thrown e
        | Run.assert_failed => Run.assert_failed
        | Run.starved => Run.starved
      | Run.thrown e => Run.thrown e
      | Run.assert_failed => Run.assert_failed
      | Run.starved => Run.starved
    | Run.thrown e => Run.thrown e
    | Run.assert_failed => Run.assert_failed
    | Run.starved => Run.starved
  | Run.thrown e => Run.thrown e
  | Run.assert_failed => Run.assert_failed
  | Run.starved => Run.starved

/-- Pull from a new `istreambuf` over a `stringReader` source holding `z`, until
end-of-stream. -/
def decompress {τ : Type} (I : Inflater τ) (fuel : Nat) (z : List Byte) : Run (List Byte) :=
  istreambuf.readAll I stringReader fuel (istreambuf.new I z)

/-- Compress `x`, then decompress what reached the sink. -/
def roundtrip {σ τ : Type} (D : Deflater σ) (I : Inflater τ) (fuel : Nat) (x : List Byte) :
    Run (List Byte) :=
  match compress D fuel x with
  | Run.done z => decompress I fuel z
  | Run.thrown e => Run.thrown e
  | Run.assert_failed => Run.assert_failed
  | Run.starved => Run.starved

/-- Write `a`, `sync()`, write `b`, `sync()`, then decompress what reached the
sink. -/
def roundtrip2 {σ τ : Type} (D : Deflater σ) (I : Inflater τ) (fuel : Nat)
    (a b : List Byte) : Run (List Byte) :=
  match compress2 D fuel a b with
  | Run.done z => decompress I fuel z
  | Run.thrown e => Run.thrown e
  | Run.assert_failed => Run.assert_failed
  | Run.starved => Run.starved

/-! ## Reading the record of calls -/

/-- The input windows handed to the engine by `overflow`, concatenated. -/
def handed : List Event → List Byte
  | [] => []
  | Event.set_input w :: es => w ++ handed es
  | _ :: es => handed es

/-- The bytes the engine took from its input window, call after call. -/
def engine_input : List Event → List Byte
  | [] => []
  | Event.deflate _ w _ n _ :: es => w.take n ++ engine_input es
  | _ :: es => engine_input es

/-- The number of drains (`overflow` calls) in a record. -/
def drains : List Event → Nat
  | [] => 0
  | Event.set_input _ :: es => drains es + 1
  | _ :: es => drains es

/-- The bookkeeping of an `ostreambuf` that has accepted the bytes `x`: the
windows handed to the engine followed by the put area are `x`, the engine has
taken every byte handed to it, its input window is empty, the put area is
within `SIZE`, and the drains so far each handed over a full put area. -/
def ostreambuf.accepted {σ ω : Type} (s : ostreambuf σ ω) (x : List Byte) : Prop :=
  handed s.trace ++ s.pbuf = x ∧ engine_input s.trace = handed s.trace ∧ s.next_in = [] ∧
  s.pbuf.length ≤ SIZE ∧ x.length = drains s.trace * SIZE + s.pbuf.length ∧
  (0 < x.length → 0 < s.pbuf.length)

/-- One `deflate_write` that returned: the engine call and its outcome. -/
structure Call where
  window : List Byte
  ret : Int
  consumed : Nat
  out : List Byte

/-- The two events of a `deflate_write` that returned: the engine call, then
the write of all produced bytes. -/
def Call.events (flush : Int) (c : Call) : List Event :=
  [Event.deflate flush c.window c.ret c.consumed c.out, Event.sputn c.out (c.out.length : Int)]

/-- The call record of the `deflate_write(flush)` made in state `s`. -/
def ostreambuf.call {σ ω : Type} (D : Deflater σ) (flush : Int) (s : ostreambuf σ ω) : Call :=
  { window := s.next_in,
    ret := (D.deflate s.zstrm_ s.next_in SIZE flush).ret,
    consumed := (D.deflate s.zstrm_ s.next_in SIZE flush).consumed,
    out := (D.deflate s.zstrm_ s.next_in SIZE flush).produced.take SIZE }

/-- The state in which a `deflate_write(flush)` made in state `s` returns. -/
def ostreambuf.after {σ ω : Type} (D : Deflater σ) (Wr : Writer ω) (flush : Int)
    (s : ostreambuf σ ω) : ostreambuf σ ω :=
  { pbuf := s.pbuf,
    next_in := s.next_in.drop (D.deflate s.zstrm_ s.next_in SIZE flush).consumed,
    zstrm_ := (D.deflate s.zstrm_ s.next_in SIZE flush).state,
    writer_ :=
      (Wr.sputn s.writer_ ((D.deflate s.zstrm_ s.next_in SIZE flush).produced.take SIZE)).1,
    trace := s.trace ++ (s.call D flush).events flush }

/-- The events of a list of `deflate_write(flush)` calls that returned. -/
def events_of (flush : Int) : List Call → List Event
  | [] => []
  | c :: cs => c.events flush ++ events_of flush cs

/-- The bytes the engine took from its input window in a list of calls. -/
def taken : List Call → List Byte
  | [] => []
  | c :: cs => c.window.take c.consumed ++ taken cs

/-- The sink after the writes of a list of calls, in order. -/
def sink_after {ω : Type} (Wr : Writer ω) (w : ω) (cs : List Call) : ω :=
  cs.foldl (fun acc c => (Wr.sputn acc c.out).1) w

/-- The engine step of `deflate_write(flush)` in state `s` is accepted and the
sink then reports a count different from the number of bytes produced. -/
def ostreambuf.short_write {σ ω : Type} (D : Deflater σ) (Wr : Writer ω) (flush : Int)
    (s : ostreambuf σ ω) : Prop :=
  ¬ ((D.deflate s.zstrm_ s.next_in SIZE flush).ret ≠ Z_OK ∧
     (D.deflate s.zstrm_ s.next_in SIZE flush).ret ≠ Z_STREAM_END ∧
     (D.deflate s.zstrm_ s.next_in SIZE flush).ret ≠ Z_BUF_ERROR) ∧
  (Wr.sputn s.writer_ ((D.deflate s.zstrm_ s.next_in SIZE flush).produced.take SIZE)).2 ≠
    ((SIZE : Int) -
      ((SIZE - ((D.deflate s.zstrm_ s.next_in SIZE flush).produced.take SIZE).length : Nat) : Int))

/-- The state after `k` iterations of the loop of `overflow` that all returned,
if the loop gets that far. -/
def ostreambuf.drain_steps {σ ω : Type} (D : Deflater σ) (Wr : Writer ω) :
    Nat → ostreambuf σ ω → Option (ostreambuf σ ω)
  | 0, s => some s
  | k + 1, s =>
    if s.next_in.length > 0 then
      match s.deflate_write D Wr Z_NO_FLUSH with
      | Run.done (s1, _) => ostreambuf.drain_steps D Wr k s1
      | _ => none
    else none

/-- The state after `k` iterations of the loop of `sync` that all returned
without `Z_STREAM_END`, if the loop gets that far. -/
def ostreambuf.finish_steps {σ ω : Type} (D : Deflater σ) (Wr : Writer ω) :
    Nat → ostreambuf σ ω → Option (ostreambuf σ ω)
  | 0, s => some s
  | k + 1, s =>
    match s.deflate_write D Wr Z_FINISH with
    | Run.done (s1, ret) =>
      if ret ≠ Z_STREAM_END then ostreambuf.finish_steps D Wr k s1 else none
    | _ => none

/-! ## The contract of the codec

`zlib` is not part of `zlib.hpp`. What the stream buffers make of it is stated
for the calls they really make: `deflate(Z_NO_FLUSH)` on a non-empty window of at
most `SIZE` bytes, `deflate(Z_FINISH)` on an empty window until `Z_STREAM_END`,
then `deflateReset`; always with `avail_out = SIZE`. -/

/-- The relation `Session D s p z`: the engine state `s` is reached from a new
stream, or from a stream reset after the end of a frame, by calls of
`deflate_write` that returned without ending the frame: `deflate(Z_NO_FLUSH)` on
a non-empty window of at most `SIZE` bytes with a code that `deflate_write`
accepts, and `deflate(Z_FINISH)` on an empty window returning `Z_OK` or
`Z_BUF_ERROR`. The input taken so far is `p`, the output so far is `z`. -/
inductive Session {σ : Type} (D : Deflater σ) : σ → List Byte → List Byte → Prop
  | init : Session D D.init [] []
  | reset {s : σ} {p z : List Byte} :
      Session D s p z → (D.deflate s [] SIZE Z_FINISH).ret = Z_STREAM_END →
      Session D (D.deflateReset (D.deflate s [] SIZE Z_FINISH).state) [] []
  | feed {s : σ} {p z : List Byte} (w : List Byte) :
      Session D s p z → w ≠ [] → w.length ≤ SIZE →
      ((D.deflate s w SIZE Z_NO_FLUSH).ret = Z_OK ∨
        (D.deflate s w SIZE Z_NO_FLUSH).ret = Z_STREAM_END ∨
        (D.deflate s w SIZE Z_NO_FLUSH).ret = Z_BUF_ERROR) →
      Session D (D.deflate s w SIZE Z_NO_FLUSH).state
        (p ++ w.take (D.deflate s w SIZE Z_NO_FLUSH).consumed)
        (z ++ (D.deflate s w SIZE Z_NO_FLUSH).produced.take SIZE)
  | finish {s : σ} {p z : List Byte} :
      Session D s p z →
      ((D.deflate s [] SIZE Z_FINISH).ret = Z_OK ∨
        (D.deflate s [] SIZE Z_FINISH).ret = Z_BUF_ERROR) →
      Session D (D.deflate s [] SIZE Z_FINISH).state p
        (z ++ (D.deflate s [] SIZE Z_FINISH).produced.take SIZE)

/-- The relation `Frame D p z`: `z` is the whole output of a session that took the
input `p` and was ended by a `deflate(Z_FINISH)` returning `Z_STREAM_END`. -/
def Frame {σ : Type} (D : Deflater σ) (p z : List Byte) : Prop :=
  ∃ (s : σ) (z0 : List Byte), Session D s p z0 ∧
    (D.deflate s [] SIZE Z_FINISH).ret = Z_STREAM_END ∧
    z = z0 ++ (D.deflate s [] SIZE Z_FINISH).produced.take SIZE

/-- The relation `FrameThen D p src`: `src` is a frame of `p` followed by a second
frame. -/
def FrameThen {σ : Type} (D : Deflater σ) (p src : List Byte) : Prop :=
  ∃ (z q y : List Byte), Frame D p z ∧ Frame D q y ∧ src = z ++ y

/-- The laws of `DeflateOK` for given sets of states and a given rank: `Live` are
the states that take input (a new stream, and on from there through
`Z_NO_FLUSH` calls), `Fin` the states in which a `Z_FINISH` has been answered by
`Z_OK` or `Z_BUF_ERROR`. Nothing is asked of a `Z_NO_FLUSH` call in a `Fin`
state; the stream buffers make none. -/
def DeflateLaws {σ : Type} (D : Deflater σ) (Live Fin : σ → Prop) (rank : σ → Nat) : Prop :=
  Live D.init ∧
  (∀ s w, Live s → w ≠ [] → w.length ≤ SIZE →
    ((D.deflate s w SIZE Z_NO_FLUSH).ret = Z_OK ∨
      (D.deflate s w SIZE Z_NO_FLUSH).ret = Z_BUF_ERROR) ∧
    Live (D.deflate s w SIZE Z_NO_FLUSH).state ∧
    (0 < (D.deflate s w SIZE Z_NO_FLUSH).consumed ∨
      rank (D.deflate s w SIZE Z_NO_FLUSH).state < rank s)) ∧
  (∀ s, Live s ∨ Fin s →
    ((D.deflate s [] SIZE Z_FINISH).ret = Z_STREAM_END ∧
      Live (D.deflateReset (D.deflate s [] SIZE Z_FINISH).state)) ∨
    (((D.deflate s [] SIZE Z_FINISH).ret = Z_OK ∨
        (D.deflate s [] SIZE Z_FINISH).ret = Z_BUF_ERROR) ∧
      Fin (D.deflate s [] SIZE Z_FINISH).state ∧
      rank (D.deflate s [] SIZE Z_FINISH).state < rank s))

/-- The compressor makes progress in the calls the stream buffers make: while it
takes input, a `deflate(Z_NO_FLUSH)` on a non-empty window of at most `SIZE`
bytes returns `Z_OK` or `Z_BUF_ERROR` and takes input or works off pending
work (`rank`); a `deflate(Z_FINISH)` on an empty window, the first or a further
one, returns `Z_STREAM_END`, after which `deflateReset` gives a stream that
takes input again, or returns `Z_OK` or `Z_BUF_ERROR` and works off pending
work. -/
def DeflateOK {σ : Type} (D : Deflater σ) : Prop :=
  ∃ (Live Fin : σ → Prop) (rank : σ → Nat), DeflateLaws D Live Fin rank

/-- The laws of `InflateOK` for a given relation `Inv`. -/
def InflateLaws {τ : Type} (I : Inflater τ) (Str : List Byte → List Byte → Prop)
    (Inv : τ → List Byte → List Byte → List Byte → Prop) : Prop :=
  (∀ p src, Str p src → Inv I.init [] src p) ∧
  (∀ s src r, Inv s [] src r → Inv s (src.take SIZE) (src.drop SIZE) r) ∧
  (∀ s w src r, Inv s w src r → (w ≠ [] ∨ src = []) →
    ((I.inflate s w SIZE Z_NO_FLUSH).ret = Z_OK ∨
      (I.inflate s w SIZE Z_NO_FLUSH).ret = Z_STREAM_END) ∧
    (∃ r1, r = (I.inflate s w SIZE Z_NO_FLUSH).produced.take SIZE ++ r1 ∧
      Inv (I.inflate s w SIZE Z_NO_FLUSH).state
        (w.drop (I.inflate s w SIZE Z_NO_FLUSH).consumed) src r1) ∧
    (r ≠ [] → (I.inflate s w SIZE Z_NO_FLUSH).produced.take SIZE ≠ []))

/-- The decompressor decodes the streams `Str`: for a source `src` with
`Str p src`, read in pieces of `SIZE` bytes each time the input window is empty,
every `inflate` with `avail_out = SIZE` returns `Z_OK` or `Z_STREAM_END`,
produces a part of what is left of `p`, a non-empty part while something is
left, and nothing once `p` is complete. `Inv s w src r` relates the engine
state, its input window, the unread source and what is left of `p`. -/
def InflateOK {τ : Type} (I : Inflater τ) (Str : List Byte → List Byte → Prop) : Prop :=
  ∃ Inv : τ → List Byte → List Byte → List Byte → Prop, InflateLaws I Str Inv

/-- The state of an `ostreambuf` over a `stringWriter` sink between calls: the
engine is in a session that took `p` and put out `z`, the sink holds
`base ++ z`, `p` followed by the put area is `x`, the input window is empty and
the put area within `SIZE`. -/
def ostreambuf.writing {σ : Type} (D : Deflater σ)
    (s : ostreambuf σ (List Byte)) (base p z x : List Byte) : Prop :=
  Session D s.zstrm_ p z ∧ s.writer_ = base ++ z ∧ p ++ s.pbuf = x ∧
  s.next_in = [] ∧ s.pbuf.length ≤ SIZE

/-- The relation kept by the stored decompressor when it is driven over a stored
frame: the stream is over and nothing is left; or the window holds whole symbols
and the source the rest of the frame; or the window holds the rest of the
frame. -/
def stored.Inv (fin : Bool) (w src r : List Byte) : Prop :=
  (fin = true ∧ r = []) ∨
  (fin = false ∧ ∃ r1 r2 t, r = r1 ++ r2 ∧ w = stored.enc r1 ∧
    src = stored.enc r2 ++ 0 :: t ∧ r1.length ≤ SIZE) ∨
  (fin = false ∧ ∃ t, w = stored.enc r ++ 0 :: t ∧ r.length ≤ SIZE)

/-! ## The kind label of the specification -/

/-- The kind label of a status code, with the prefix `wtl::zlib::` that the
constructor puts in front: the name of the code for the five error codes, the
code in decimal between brackets for any other. -/
def Exception.kind (ret : Int) : String :=
  if ret = Z_STREAM_ERROR then "wtl::zlib::Z_STREAM_ERROR"
  else if ret = Z_DATA_ERROR then "wtl::zlib::Z_DATA_ERROR"
  else if ret = Z_MEM_ERROR then "wtl::zlib::Z_MEM_ERROR"
  else if ret = Z_BUF_ERROR then "wtl::zlib::Z_BUF_ERROR"
  else if ret = Z_VERSION_ERROR then "wtl::zlib::Z_VERSION_ERROR"
  else "wtl::zlib::[" ++ toString ret ++ "]"

/-! # Theorems -/

/-! ## Conversions -/

theorem to_int_type_ne_eof (c : Byte) : to_int_type c ≠ eof := by
  unfold to_int_type eof
  omega

theorem to_char_type_to_int_type (c : Byte) : to_char_type (to_int_type c) = c := by
  unfold to_char_type to_int_type
  apply Fin.ext
  have h := c.isLt
  simp only [Fin.ofNat, Fin.val_mk]
  omega

/-! ## `Exception` -/

theorem unknown_label_ne (c : Int) (t : String) (h : t.data.get? 11 ≠ some '[') :
    "wtl::zlib::[" ++ toString c ++ "]" ≠ t := by
  intro e
  apply h
  rw [← e]
  simp [String.data_append]

/-- C9: the message of the error built from status `r` and diagnostic `m` is
the kind label of `r`, then `": "`, then `m`; the stream, data, memory, buffer
and version error codes have five different labels, and any other code `r` has
the label `[r]` with `r` in decimal, which is none of those five. -/
theorem Exception_what_kind (r : Int) (m : String) :
    Exception.what m r = Exception.kind r ++ ": " ++ m ∧
    Exception.kind Z_STREAM_ERROR = "wtl::zlib::Z_STREAM_ERROR" ∧
    Exception.kind Z_DATA_ERROR = "wtl::zlib::Z_DATA_ERROR" ∧
    Exception.kind Z_MEM_ERROR = "wtl::zlib::Z_MEM_ERROR" ∧
    Exception.kind Z_BUF_ERROR = "wtl::zlib::Z_BUF_ERROR" ∧
    Exception.kind Z_VERSION_ERROR = "wtl::zlib::Z_VERSION_ERROR" ∧
    ["wtl::zlib::Z_STREAM_ERROR", "wtl::zlib::Z_DATA_ERROR", "wtl::zlib::Z_MEM_ERROR",
      "wtl::zlib::Z_BUF_ERROR", "wtl::zlib::Z_VERSION_ERROR"].Nodup ∧
    (r ∉ [Z_STREAM_ERROR, Z_DATA_ERROR, Z_MEM_ERROR, Z_BUF_ERROR, Z_VERSION_ERROR] →
      Exception.kind r = "wtl::zlib::[" ++ toString r ++ "]" ∧
      Exception.kind r ∉ ["wtl::zlib::Z_STREAM_ERROR", "wtl::zlib::Z_DATA_ERROR",
        "wtl::zlib::Z_MEM_ERROR", "wtl::zlib::Z_BUF_ERROR", "wtl::zlib::Z_VERSION_ERROR"]) := by
  refine ⟨?_, by decide, by decide, by decide, by decide, by decide, by decide, ?_⟩
  · unfold Exception.what Exception.kind
    simp only []
    have hb : ∀ t : String, "wtl::zlib::" ++ ("[" ++ t) = "wtl::zlib::[" ++ t := by
      intro t
      rw [← String.append_assoc]
      rfl
    split_ifs <;> simp [String.append_assoc, hb]
  · intro h
    simp only [List.mem_cons, List.mem_singleton, List.not_mem_nil, or_false, not_or] at h
    obtain ⟨h1, h2, h3, h4, h5⟩ := h
    have hk : Exception.kind r = "wtl::zlib::[" ++ toString r ++ "]" := by
      unfold Exception.kind
      simp [h1, h2, h3, h4, h5]
    refine ⟨hk, ?_⟩
    rw [hk]
    simp only [List.mem_cons, List.mem_singleton, List.not_mem_nil, or_false, not_or]
    refine ⟨?_, ?_, ?_, ?_, ?_⟩ <;> exact unknown_label_ne r _ (by decide)

/-- C9 at a concrete input: status 7 with diagnostic `"oops"`. -/
theorem Exception_what_kind_witness :
    Exception.kind 7 = "wtl::zlib::[" ++ toString (7 : Int) ++ "]" ∧
    Exception.kind 7 ∉ ["wtl::zlib::Z_STREAM_ERROR", "wtl::zlib::Z_DATA_ERROR",
        "wtl::zlib::Z_MEM_ERROR", "wtl::zlib::Z_BUF_ERROR", "wtl::zlib::Z_VERSION_ERROR"] :=
  (Exception_what_kind 7 "oops").2.2.2.2.2.2.2 (by decide)

/-! ## `istreambuf::underflow` -/

/-- C4: whenever the `inflate` call of `underflow()` returns a code other than
`Z_OK` and `Z_STREAM_END`, `underflow()` throws the `Exception` built from that
code and the engine message, so it returns neither a byte nor `eof`; for the
code `Z_DATA_ERROR` the message starts with the `Z_DATA_ERROR` label. -/
theorem underflow_throws {τ ρ : Type} (I : Inflater τ) (Rd : Reader ρ) (s : istreambuf τ ρ)
    (h1 : (I.inflate (s.refill Rd).zstrm_ (s.refill Rd).next_in SIZE Z_NO_FLUSH).ret ≠ Z_OK)
    (h2 : (I.inflate (s.refill Rd).zstrm_ (s.refill Rd).next_in SIZE Z_NO_FLUSH).ret
      ≠ Z_STREAM_END) :
    s.underflow I Rd = Run.thrown (Raised.Exception (Exception.what
      (I.inflate (s.refill Rd).zstrm_ (s.refill Rd).next_in SIZE Z_NO_FLUSH).msg
      (I.inflate (s.refill Rd).zstrm_ (s.refill Rd).next_in SIZE Z_NO_FLUSH).ret)) ∧
    (∀ a, s.underflow I Rd ≠ Run.done a) ∧
    ((I.inflate (s.refill Rd).zstrm_ (s.refill Rd).next_in SIZE Z_NO_FLUSH).ret = Z_DATA_ERROR →
      s.underflow I Rd = Run.thrown (Raised.Exception ("wtl::zlib::Z_DATA_ERROR: " ++
        (I.inflate (s.refill Rd).zstrm_ (s.refill Rd).next_in SIZE Z_NO_FLUSH).msg))) := by
  have hu : s.underflow I Rd = Run.thrown (Raised.Exception (Exception.what
      (I.inflate (s.refill Rd).zstrm_ (s.refill Rd).next_in SIZE Z_NO_FLUSH).msg
      (I.inflate (s.refill Rd).zstrm_ (s.refill Rd).next_in SIZE Z_NO_FLUSH).ret)) := by
    unfold istreambuf.underflow
    simp only [h1, h2, ne_eq, not_false_eq_true, and_self, if_true]
  refine ⟨hu, ?_, ?_⟩
  · intro a ha
    rw [hu] at ha
    cases ha
  · intro hd
    rw [hu, hd]
    rfl

/-- C4 at a concrete input: a source whose first byte is no symbol of the stored
format makes `underflow()` throw the data error. -/
theorem underflow_throws_witness :
    (istreambuf.new stored.inflater [7, 1, 6, 0]).underflow stored.inflater stringReader =
      Run.thrown (Raised.Exception "wtl::zlib::Z_DATA_ERROR: invalid block type") :=
  (underflow_throws stored.inflater stringReader (istreambuf.new stored.inflater [7, 1, 6, 0])
    (by decide) (by decide)).2.2 (by decide)

/-- The state and value with which `underflow()` returns after an `inflate` call
that returned `Z_OK` or `Z_STREAM_END`. -/
theorem underflow_ok {τ ρ : Type} (I : Inflater τ) (Rd : Reader ρ) (s : istreambuf τ ρ)
    (h : (I.inflate (s.refill Rd).zstrm_ (s.refill Rd).next_in SIZE Z_NO_FLUSH).ret = Z_OK ∨
      (I.inflate (s.refill Rd).zstrm_ (s.refill Rd).next_in SIZE Z_NO_FLUSH).ret
        = Z_STREAM_END) :
    ∃ s1 v, s.underflow I Rd = Run.done (s1, v) ∧
      s1.gbuf = (I.inflate (s.refill Rd).zstrm_ (s.refill Rd).next_in SIZE
        Z_NO_FLUSH).produced.take SIZE ∧
      s1.zstrm_ = (I.inflate (s.refill Rd).zstrm_ (s.refill Rd).next_in SIZE Z_NO_FLUSH).state ∧
      s1.next_in = (s.refill Rd).next_in.drop
        (I.inflate (s.refill Rd).zstrm_ (s.refill Rd).next_in SIZE Z_NO_FLUSH).consumed ∧
      s1.reader_ = (s.refill Rd).reader_ ∧
      (v = eof ↔ s1.gbuf = []) ∧
      (∀ c rest, s1.gbuf = c :: rest → v = to_int_type c) := by
  have hc : ¬ ((I.inflate (s.refill Rd).zstrm_ (s.refill Rd).next_in SIZE Z_NO_FLUSH).ret ≠ Z_OK ∧
      (I.inflate (s.refill Rd).zstrm_ (s.refill Rd).next_in SIZE Z_NO_FLUSH).ret
        ≠ Z_STREAM_END) := by
    rintro ⟨h1, h2⟩
    rcases h with h | h
    · exact h1 h
    · exact h2 h
  unfold istreambuf.underflow
  simp only [hc, if_false]
  cases hout : (I.inflate (s.refill Rd).zstrm_ (s.refill Rd).next_in SIZE
      Z_NO_FLUSH).produced.take SIZE with
  | nil =>
    exact ⟨_, _, rfl, rfl, rfl, rfl, rfl, by simp, by intro c rest hh; cases hh⟩
  | cons c rest =>
    refine ⟨_, _, rfl, rfl, rfl, rfl, rfl, ?_, ?_⟩
    · simp [to_int_type_ne_eof]
    · intro c1 rest1 hh
      simp only [List.cons.injEq] at hh
      rw [hh.1]

/-- C5, as stated, fails: with the stored codec and a source holding the frame
of the empty plaintext, the `inflate` call of `underflow()` is given the
non-empty window `[0]`, consumes it, returns `Z_STREAM_END` without output, and
`underflow()` returns `eof`. -/
theorem underflow_eof_after_input :
    (istreambuf.refill stringReader (istreambuf.new stored.inflater [0])).next_in = [0] ∧
    (stored.inflater.inflate false [0] SIZE Z_NO_FLUSH).ret = Z_STREAM_END ∧
    (stored.inflater.inflate false [0] SIZE Z_NO_FLUSH).consumed = 1 ∧
    (stored.inflater.inflate false [0] SIZE Z_NO_FLUSH).produced = [] ∧
    ¬ (∀ (s s1 : istreambuf Bool (List Byte)),
        s.underflow stored.inflater stringReader = Run.done (s1, eof) →
        (s.refill stringReader).next_in = []) := by
  refine ⟨rfl, rfl, rfl, rfl, ?_⟩
  intro h
  have h0 := h (istreambuf.new stored.inflater [0])
    { next_in := [], gbuf := [], zstrm_ := true, reader_ := [] } rfl
  revert h0
  decide

/-- C5, amended: when the `inflate` call of `underflow()` returns `Z_OK` or
`Z_STREAM_END`, `underflow()` returns and the get area is exactly the output of
that call. It returns `eof` only when that output is empty; it does return `eof`
when the output is empty and the call either had an empty input window or
returned `Z_STREAM_END` (also after taking input). For a non-empty output it
returns the first byte, which stays in the get area. Nothing is said of an
empty output after a `Z_OK` call that had input. -/
theorem underflow_returns {τ ρ : Type} (I : Inflater τ) (Rd : Reader ρ) (s : istreambuf τ ρ)
    (h : (I.inflate (s.refill Rd).zstrm_ (s.refill Rd).next_in SIZE Z_NO_FLUSH).ret = Z_OK ∨
      (I.inflate (s.refill Rd).zstrm_ (s.refill Rd).next_in SIZE Z_NO_FLUSH).ret
        = Z_STREAM_END) :
    ∃ s1 v, s.underflow I Rd = Run.done (s1, v) ∧
      s1.gbuf = (I.inflate (s.refill Rd).zstrm_ (s.refill Rd).next_in SIZE
        Z_NO_FLUSH).produced.take SIZE ∧
      (v = eof → (I.inflate (s.refill Rd).zstrm_ (s.refill Rd).next_in SIZE
        Z_NO_FLUSH).produced.take SIZE = []) ∧
      ((I.inflate (s.refill Rd).zstrm_ (s.refill Rd).next_in SIZE
          Z_NO_FLUSH).produced.take SIZE = [] →
        ((s.refill Rd).next_in = [] ∨
          (I.inflate (s.refill Rd).zstrm_ (s.refill Rd).next_in SIZE Z_NO_FLUSH).ret
            = Z_STREAM_END) →
        v = eof) ∧
      (∀ c rest, (I.inflate (s.refill Rd).zstrm_ (s.refill Rd).next_in SIZE
        Z_NO_FLUSH).produced.take SIZE = c :: rest →
        v = to_int_type c ∧ s1.gbuf = c :: rest) := by
  have hc : ¬ ((I.inflate (s.refill Rd).zstrm_ (s.refill Rd).next_in SIZE Z_NO_FLUSH).ret ≠ Z_OK ∧
      (I.inflate (s.refill Rd).zstrm_ (s.refill Rd).next_in SIZE Z_NO_FLUSH).ret
        ≠ Z_STREAM_END) := by
    rintro ⟨h1, h2⟩
    rcases h with h | h
    · exact h1 h
    · exact h2 h
  unfold istreambuf.underflow
  simp only [hc, if_false]
  cases hout : (I.inflate (s.refill Rd).zstrm_ (s.refill Rd).next_in SIZE
      Z_NO_FLUSH).produced.take SIZE with
  | nil =>
    refine ⟨_, _, rfl, rfl, fun _ => rfl, fun _ _ => rfl, ?_⟩
    intro c rest hh
    cases hh
  | cons c rest =>
    refine ⟨_, _, rfl, rfl, ?_, ?_, ?_⟩
    · intro hv
      exact absurd hv (to_int_type_ne_eof c)
    · intro hh
      cases hh
    · intro c1 rest1 hh
      simp only [List.cons.injEq] at hh
      obtain ⟨h1, h2⟩ := hh
      subst h1
      subst h2
      exact ⟨rfl, rfl⟩

/-- C5 amended, at concrete inputs: over the stored frame of the plaintext `[5]`
the call returns the byte 5 and leaves it in the get area; over the stored
frame of the empty plaintext it returns `eof`. -/
theorem underflow_returns_witness :
    (∃ s1 v, (istreambuf.new stored.inflater [1, 5, 0]).underflow stored.inflater stringReader
        = Run.done (s1, v) ∧ v = to_int_type 5 ∧ s1.gbuf = [5]) ∧
    (∃ s1 v, (istreambuf.new stored.inflater [0]).underflow stored.inflater stringReader
        = Run.done (s1, v) ∧ v = eof) := by
  constructor
  · obtain ⟨s1, v, h1, -, -, -, h5⟩ := underflow_returns stored.inflater stringReader
      (istreambuf.new stored.inflater [1, 5, 0]) (Or.inr (by decide))
    exact ⟨s1, v, h1, h5 5 [] rfl⟩
  · obtain ⟨s1, v, h1, -, -, h4, -⟩ := underflow_returns stored.inflater stringReader
      (istreambuf.new stored.inflater [0]) (Or.inr (by decide))
    exact ⟨s1, v, h1, h4 rfl (Or.inr rfl)⟩

/-! ## `ostreambuf::deflate_write` -/

theorem writing_eq (out : List Byte) (h : out.length ≤ SIZE) :
    (SIZE : Int) - ((SIZE - out.length : Nat) : Int) = (out.length : Int) := by
  omega

theorem take_size_length (l : List Byte) : (l.take SIZE).length ≤ SIZE := by
  rw [List.length_take]
  exact Nat.min_le_left _ _

theorem deflate_write_eq {σ ω : Type} (D : Deflater σ) (Wr : Writer ω) (flush : Int)
    (s : ostreambuf σ ω) :
    s.deflate_write D Wr flush =
      if (D.deflate s.zstrm_ s.next_in SIZE flush).ret ≠ Z_OK ∧
          (D.deflate s.zstrm_ s.next_in SIZE flush).ret ≠ Z_STREAM_END ∧
          (D.deflate s.zstrm_ s.next_in SIZE flush).ret ≠ Z_BUF_ERROR then
        Run.thrown (Raised.Exception (Exception.what (D.deflate s.zstrm_ s.next_in SIZE flush).msg
          (D.deflate s.zstrm_ s.next_in SIZE flush).ret))
      else if (Wr.sputn s.writer_ ((D.deflate s.zstrm_ s.next_in SIZE flush).produced.take
          SIZE)).2 ≠ (((D.deflate s.zstrm_ s.next_in SIZE flush).produced.take SIZE).length : Int) then
        Run.thrown (Raised.ios_failure "wtl::zlib: written != writing")
      else Run.done (s.after D Wr flush, (D.deflate s.zstrm_ s.next_in SIZE flush).ret) := by
  have hw := writing_eq _ (take_size_length (D.deflate s.zstrm_ s.next_in SIZE flush).produced)
  unfold ostreambuf.deflate_write
  simp only [hw, Int.toNat_ofNat, List.take_length]
  split_ifs with h1 h2
  · rfl
  · rfl
  · simp only [ostreambuf.after, ostreambuf.call, Call.events, List.append_assoc,
      List.singleton_append]
    rw [show (Wr.sputn s.writer_ ((D.deflate s.zstrm_ s.next_in SIZE flush).produced.take
      SIZE)).2 = _ from not_not.mp h2]

theorem deflate_write_short {σ ω : Type} (D : Deflater σ) (Wr : Writer ω) (flush : Int)
    (s : ostreambuf σ ω) (h : s.short_write D Wr flush) :
    s.deflate_write D Wr flush = Run.thrown (Raised.ios_failure "wtl::zlib: written != writing") := by
  obtain ⟨h1, h2⟩ := h
  rw [writing_eq _ (take_size_length _)] at h2
  rw [deflate_write_eq, if_neg h1, if_pos h2]

theorem drain_of_steps {σ ω : Type} (D : Deflater σ) (Wr : Writer ω) (e : Raised) :
    ∀ (k fuel : Nat) (s sk : ostreambuf σ ω), k < fuel →
      ostreambuf.drain_steps D Wr k s = some sk → 0 < sk.next_in.length →
      sk.deflate_write D Wr Z_NO_FLUSH = Run.thrown e →
      ostreambuf.drain D Wr fuel s = Run.thrown e := by
  intro k
  induction k with
  | zero =>
    intro fuel s sk hk hs hn he
    simp only [ostreambuf.drain_steps, Option.some.injEq] at hs
    subst hs
    obtain ⟨f, rfl⟩ : ∃ f, fuel = f + 1 := ⟨fuel - 1, by omega⟩
    simp only [ostreambuf.drain, hn, if_true, he]
  | succ k ih =>
    intro fuel s sk hk hs hn he
    obtain ⟨f, rfl⟩ : ∃ f, fuel = f + 1 := ⟨fuel - 1, by omega⟩
    unfold ostreambuf.drain_steps at hs
    unfold ostreambuf.drain
    by_cases h0 : s.next_in.length > 0
    · simp only [h0, if_true] at hs ⊢
      cases hd : s.deflate_write D Wr Z_NO_FLUSH with
      | done a =>
        obtain ⟨s1, v⟩ := a
        rw [hd] at hs
        simp only at hs ⊢
        exact ih f s1 sk (by omega) hs hn he
      | thrown e1 => rw [hd] at hs; cases hs
      | assert_failed => rw [hd] at hs; cases hs
      | starved => rw [hd] at hs; cases hs
    · simp only [h0, if_false] at hs
      cases hs

theorem finish_of_steps {σ ω : Type} (D : Deflater σ) (Wr : Writer ω) (e : Raised) :
    ∀ (k fuel : Nat) (s sk : ostreambuf σ ω), k < fuel →
      ostreambuf.finish_steps D Wr k s = some sk →
      sk.deflate_write D Wr Z_FINISH = Run.thrown e →
      ostreambuf.finish D Wr fuel s = Run.thrown e := by
  intro k
  induction k with
  | zero =>
    intro fuel s sk hk hs he
    simp only [ostreambuf.finish_steps, Option.some.injEq] at hs
    subst hs
    obtain ⟨f, rfl⟩ : ∃ f, fuel = f + 1 := ⟨fuel - 1, by omega⟩
    simp only [ostreambuf.finish, he]
  | succ k ih =>
    intro fuel s sk hk hs he
    obtain ⟨f, rfl⟩ : ∃ f, fuel = f + 1 := ⟨fuel - 1, by omega⟩
    unfold ostreambuf.finish_steps at hs
    unfold ostreambuf.finish
    cases hd : s.deflate_write D Wr Z_FINISH with
    | done a =>
      obtain ⟨s1, v⟩ := a
      rw [hd] at hs
      simp only at hs ⊢
      by_cases hv : v ≠ Z_STREAM_END
      · rw [if_pos hv] at hs ⊢
        exact ih f s1 sk (by omega) hs he
      · rw [if_neg hv] at hs
        cases hs
    | thrown e1 => rw [hd] at hs; cases hs
    | assert_failed => rw [hd] at hs; cases hs
    | starved => rw [hd] at hs; cases hs

theorem drain_done {σ ω : Type} (D : Deflater σ) (Wr : Writer ω) :
    ∀ (n : Nat) (t t1 : ostreambuf σ ω), ostreambuf.drain D Wr n t = Run.done t1 →
      t1.next_in.length = 0 ∧ t1.pbuf = t.pbuf := by
  intro n
  induction n with
  | zero =>
    intro t t1 ht
    unfold ostreambuf.drain at ht
    split_ifs at ht with h0
    injection ht with ht
    subst ht
    exact ⟨by omega, rfl⟩
  | succ n ih =>
    intro t t1 ht
    unfold ostreambuf.drain at ht
    split_ifs at ht with h0
    · rw [deflate_write_eq] at ht
      split_ifs at ht
      simp only at ht
      have h := ih _ _ ht
      exact ⟨h.1, h.2⟩
    · injection ht with ht
      subst ht
      exact ⟨by omega, rfl⟩

/-- C3: a `deflate_write` whose engine step is accepted and whose sink reports a
count different from the number of bytes produced throws the
`std::ios_base::failure`; `overflow` throws it when an iteration of its loop is
such a step, and `sync` throws it when an iteration of the loop of its
`overflow` or of its own loop is such a step. -/
theorem short_write_fatal {σ ω : Type} (D : Deflater σ) (Wr : Writer ω) :
    (∀ (flush : Int) (s : ostreambuf σ ω), s.short_write D Wr flush →
      s.deflate_write D Wr flush =
        Run.thrown (Raised.ios_failure "wtl::zlib: written != writing")) ∧
    (∀ (fuel k : Nat) (c : Int) (s sk : ostreambuf σ ω), k < fuel →
      ostreambuf.drain_steps D Wr k s.set_input = some sk → 0 < sk.next_in.length →
      sk.short_write D Wr Z_NO_FLUSH →
      s.overflow D Wr fuel c = Run.thrown (Raised.ios_failure "wtl::zlib: written != writing")) ∧
    (∀ (fuel k : Nat) (s sk : ostreambuf σ ω), k < fuel →
      ostreambuf.drain_steps D Wr k s.set_input = some sk → 0 < sk.next_in.length →
      sk.short_write D Wr Z_NO_FLUSH →
      s.sync D Wr fuel = Run.thrown (Raised.ios_failure "wtl::zlib: written != writing")) ∧
    (∀ (fuel k : Nat) (s s1 sk : ostreambuf σ ω) (v : Int), k < fuel →
      s.overflow D Wr fuel eof = Run.done (s1, v) →
      ostreambuf.finish_steps D Wr k s1 = some sk →
      sk.short_write D Wr Z_FINISH →
      s.sync D Wr fuel = Run.thrown (Raised.ios_failure "wtl::zlib: written != writing")) := by
  have hov : ∀ (fuel k : Nat) (c : Int) (s sk : ostreambuf σ ω), k < fuel →
      ostreambuf.drain_steps D Wr k s.set_input = some sk → 0 < sk.next_in.length →
      sk.short_write D Wr Z_NO_FLUSH →
      s.overflow D Wr fuel c =
        Run.thrown (Raised.ios_failure "wtl::zlib: written != writing") := by
    intro fuel k c s sk hk hs hn hw
    unfold ostreambuf.overflow
    rw [drain_of_steps D Wr _ k fuel _ sk hk hs hn (deflate_write_short D Wr _ sk hw)]
  refine ⟨deflate_write_short D Wr, hov, ?_, ?_⟩
  · intro fuel k s sk hk hs hn hw
    unfold ostreambuf.sync
    rw [hov fuel k eof s sk hk hs hn hw]
  · intro fuel k s s1 sk v hk ho hs hw
    have hz : s1.next_in.length = 0 := by
      unfold ostreambuf.overflow at ho
      cases hd : ostreambuf.drain D Wr fuel s.set_input with
      | done s2 =>
        rw [hd] at ho
        simp only [if_true] at ho
        injection ho with ho
        injection ho with ho1 ho2
        subst ho1
        exact (drain_done D Wr fuel _ s2 hd).1
      | thrown e1 => rw [hd] at ho; cases ho
      | assert_failed => rw [hd] at ho; cases ho
      | starved => rw [hd] at ho; cases ho
    unfold ostreambuf.sync
    rw [ho]
    simp only [hz, if_true]
    rw [finish_of_steps D Wr _ k fuel s1 sk hk hs (deflate_write_short D Wr _ sk hw)]

/-- C3 at concrete inputs: with the stored codec and a sink that accepts no
byte, `deflate_write(Z_FINISH)` on a new stream buffer, `overflow` with the byte 5
in the put area, and `sync()` on a new stream buffer all throw the failure. -/
theorem short_write_fatal_witness :
    (ostreambuf.new stored.deflater []).deflate_write stored.deflater (shortWriter 0) Z_FINISH
      = Run.thrown (Raised.ios_failure "wtl::zlib: written != writing") ∧
    ({ ostreambuf.new stored.deflater [] with pbuf := [5] }).overflow stored.deflater
      (shortWriter 0) 1 eof = Run.thrown (Raised.ios_failure "wtl::zlib: written != writing") ∧
    (ostreambuf.new stored.deflater []).sync stored.deflater (shortWriter 0) 1
      = Run.thrown (Raised.ios_failure "wtl::zlib: written != writing") :=
  ⟨(short_write_fatal stored.deflater (shortWriter 0)).1 Z_FINISH
      (ostreambuf.new stored.deflater []) ⟨by decide, by decide⟩,
    (short_write_fatal stored.deflater (shortWriter 0)).2.1 1 0 eof
      { ostreambuf.new stored.deflater [] with pbuf := [5] }
      (ostreambuf.set_input { ostreambuf.new stored.deflater [] with pbuf := [5] })
      (by decide) rfl (by decide) ⟨by decide, by decide⟩,
    (short_write_fatal stored.deflater (shortWriter 0)).2.2.2 1 0
      (ostreambuf.new stored.deflater [])
      (ostreambuf.set_input (ostreambuf.new stored.deflater []))
      (ostreambuf.set_input (ostreambuf.new stored.deflater [])) eof (by decide) rfl rfl
      ⟨by decide, by decide⟩⟩

/-! ## `ostreambuf::overflow` and the assertion of `sync` -/

theorem finish_not_assert {σ ω : Type} (D : Deflater σ) (Wr : Writer ω) :
    ∀ (n : Nat) (t : ostreambuf σ ω), ostreambuf.finish D Wr n t ≠ Run.assert_failed := by
  intro n
  induction n with
  | zero =>
    intro t h
    unfold ostreambuf.finish at h
    cases h
  | succ n ih =>
    intro t h
    unfold ostreambuf.finish at h
    rw [deflate_write_eq] at h
    split_ifs at h
    · simp only at h
      split_ifs at h
      exact ih _ h

theorem overflow_done {σ ω : Type} (D : Deflater σ) (Wr : Writer ω) (fuel : Nat) (c : Int)
    (s s1 : ostreambuf σ ω) (v : Int) (h : s.overflow D Wr fuel c = Run.done (s1, v)) :
    ∃ s2, ostreambuf.drain D Wr fuel s.set_input = Run.done s2 ∧
      s1 = { s2 with pbuf := if c = eof then [] else [to_char_type c] } ∧
      v = (if c = eof then eof else to_int_type (to_char_type c)) := by
  unfold ostreambuf.overflow at h
  cases hd : ostreambuf.drain D Wr fuel s.set_input with
  | done s2 =>
    rw [hd] at h
    simp only at h
    refine ⟨s2, rfl, ?_⟩
    split_ifs at h ⊢ with hc
    · injection h with h
      injection h with h1 h2
      exact ⟨h1.symm, h2.symm⟩
    · injection h with h
      injection h with h1 h2
      exact ⟨h1.symm, h2.symm⟩
  | thrown e1 => rw [hd] at h; cases h
  | assert_failed => rw [hd] at h; cases h
  | starved => rw [hd] at h; cases h

/-- C10: when `overflow(c)` returns, the input window of the engine is empty and
the put area has been reset: it is empty for `c = eof` and holds just the byte
`c` otherwise, with room left in its `SIZE` bytes; and no run of `sync()` fails
the assertion `zstrm_.avail_in == 0`, whatever the engine and the sink do. -/
theorem overflow_consumes_all {σ ω : Type} (D : Deflater σ) (Wr : Writer ω) :
    (∀ (fuel : Nat) (c : Int) (s s1 : ostreambuf σ ω) (v : Int),
      s.overflow D Wr fuel c = Run.done (s1, v) →
      s1.next_in = [] ∧ s1.pbuf = (if c = eof then [] else [to_char_type c]) ∧
      s1.pbuf.length < SIZE) ∧
    (∀ (fuel : Nat) (s : ostreambuf σ ω), s.sync D Wr fuel ≠ Run.assert_failed) := by
  have h1 : ∀ (fuel : Nat) (c : Int) (s s1 : ostreambuf σ ω) (v : Int),
      s.overflow D Wr fuel c = Run.done (s1, v) →
      s1.next_in = [] ∧ s1.pbuf = (if c = eof then [] else [to_char_type c]) ∧
      s1.pbuf.length < SIZE := by
    intro fuel c s s1 v h
    obtain ⟨s2, hd, hs, -⟩ := overflow_done D Wr fuel c s s1 v h
    subst hs
    refine ⟨List.length_eq_zero.mp (drain_done D Wr fuel _ _ hd).1, rfl, ?_⟩
    simp only
    split_ifs <;> simp [SIZE]
  refine ⟨h1, ?_⟩
  intro fuel s h
  unfold ostreambuf.sync at h
  cases ho : s.overflow D Wr fuel eof with
  | done a =>
    obtain ⟨s1, v⟩ := a
    rw [ho] at h
    have hz := (h1 fuel eof s s1 v ho).1
    simp only [hz, List.length_nil, if_true] at h
    cases hf : ostreambuf.finish D Wr fuel s1 with
    | done s2 => rw [hf] at h; cases h
    | thrown e1 => rw [hf] at h; cases h
    | assert_failed => exact finish_not_assert D Wr fuel s1 hf
    | starved => rw [hf] at h; cases h
  | thrown e1 => rw [ho] at h; cases h
  | assert_failed =>
    unfold ostreambuf.overflow at ho
    cases hd : ostreambuf.drain D Wr fuel s.set_input with
    | done s2 => rw [hd] at ho; simp only [if_true] at ho; cases ho
    | thrown e1 => rw [hd] at ho; cases ho
    | assert_failed =>
      have : ∀ (n : Nat) (t : ostreambuf σ ω),
          ostreambuf.drain D Wr n t ≠ Run.assert_failed := by
        intro n
        induction n with
        | zero =>
          intro t ht
          unfold ostreambuf.drain at ht
          split_ifs at ht
        | succ n ih =>
          intro t ht
          unfold ostreambuf.drain at ht
          rw [deflate_write_eq] at ht
          split_ifs at ht
          exact ih _ ht
      exact this _ _ hd
    | starved => rw [hd] at ho; cases ho
  | starved => rw [ho] at h; cases h

/-- C10 at a concrete input: `overflow(65)` with the stored codec on a put area
holding the byte 5 returns with an empty input window and the put area `[65]`. -/
theorem overflow_consumes_all_witness :
    ({ pbuf := [to_char_type 65], next_in := [], zstrm_ := false, writer_ := [1, 5],
        trace := [Event.set_input [5], Event.deflate 0 [5] 0 1 [1, 5], Event.sputn [1, 5] 2] } :
      ostreambuf Bool (List Byte)).next_in = [] ∧
    [to_char_type 65] = (if (65 : Int) = eof then [] else [to_char_type 65]) ∧
    [to_char_type 65].length < SIZE :=
  (overflow_consumes_all stored.deflater stringWriter).1 2 65
    { ostreambuf.new stored.deflater [] with pbuf := [5] }
    { pbuf := [to_char_type 65], next_in := [], zstrm_ := false, writer_ := [1, 5],
      trace := [Event.set_input [5], Event.deflate 0 [5] 0 1 [1, 5], Event.sputn [1, 5] 2] }
    65 rfl

/-! ## `ostreambuf::~ostreambuf` -/

/-- C8, as stated, fails: with the stored codec and a sink that accepts no byte,
the `sync()` of the destructor of a new stream buffer throws, and the failure
leaves the destructor. -/
theorem destroy_propagates :
    (ostreambuf.new stored.deflater []).destroy stored.deflater (shortWriter 0) 1 =
      Run.thrown (Raised.ios_failure "wtl::zlib: written != writing") := by
  decide

/-- C8, amended: the destructor runs `sync()` and nothing else: it completes when
`sync()` returns, and whatever `sync()` throws leaves the destructor unchanged. -/
theorem destroy_eq_sync {σ ω : Type} (D : Deflater σ) (Wr : Writer ω) (fuel : Nat)
    (s : ostreambuf σ ω) :
    (∀ a, s.sync D Wr fuel = Run.done a → s.destroy D Wr fuel = Run.done ()) ∧
    (∀ e, s.sync D Wr fuel = Run.thrown e → s.destroy D Wr fuel = Run.thrown e) ∧
    (s.destroy D Wr fuel = Run.done () → ∃ a, s.sync D Wr fuel = Run.done a) := by
  unfold ostreambuf.destroy
  refine ⟨?_, ?_, ?_⟩
  · intro a h
    rw [h]
  · intro e h
    rw [h]
  · intro h
    cases hs : s.sync D Wr fuel with
    | done a => exact ⟨a, rfl⟩
    | thrown e1 => rw [hs] at h; cases h
    | assert_failed => rw [hs] at h; cases h
    | starved => rw [hs] at h; cases h

/-- C8 amended, at concrete inputs: with a sink that stores everything the
destructor of a new stream buffer completes, and with a sink that accepts no
byte the failure of `sync()` leaves it. -/
theorem destroy_eq_sync_witness :
    (ostreambuf.new stored.deflater []).destroy stored.deflater stringWriter 1 = Run.done () ∧
    (ostreambuf.new stored.deflater []).destroy stored.deflater (shortWriter 0) 1 =
      Run.thrown (Raised.ios_failure "wtl::zlib: written != writing") :=
  ⟨(destroy_eq_sync stored.deflater stringWriter 1 (ostreambuf.new stored.deflater [])).1 _
      (rfl : (ostreambuf.new stored.deflater []).sync stored.deflater stringWriter 1 = Run.done
        ({ pbuf := [], next_in := [], zstrm_ := false, writer_ := [0],
           trace := [Event.set_input [], Event.deflate 4 [] 1 0 [0], Event.sputn [0] 1,
             Event.deflateReset] }, 0)),
    (destroy_eq_sync stored.deflater (shortWriter 0) 1 (ostreambuf.new stored.deflater [])).2.1 _ rfl⟩

/-! ## The record of calls -/

theorem handed_append (t u : List Event) : handed (t ++ u) = handed t ++ handed u := by
  induction t with
  | nil => rfl
  | cons e t ih => cases e <;> simp [handed, ih]

theorem engine_input_append (t u : List Event) :
    engine_input (t ++ u) = engine_input t ++ engine_input u := by
  induction t with
  | nil => rfl
  | cons e t ih => cases e <;> simp [engine_input, ih]

theorem drains_append (t u : List Event) : drains (t ++ u) = drains t + drains u := by
  induction t with
  | nil => simp [drains]
  | cons e t ih =>
    cases e <;> simp [drains, ih]
    omega

theorem events_of_append (flush : Int) (a b : List Call) :
    events_of flush (a ++ b) = events_of flush a ++ events_of flush b := by
  induction a with
  | nil => rfl
  | cons c a ih => simp [events_of, ih]

theorem handed_events_of (flush : Int) (cs : List Call) : handed (events_of flush cs) = [] := by
  induction cs with
  | nil => rfl
  | cons c cs ih => simp [events_of, Call.events, handed, ih]

theorem drains_events_of (flush : Int) (cs : List Call) : drains (events_of flush cs) = 0 := by
  induction cs with
  | nil => rfl
  | cons c cs ih => simp [events_of, Call.events, drains, ih]

theorem engine_input_events_of (flush : Int) (cs : List Call) :
    engine_input (events_of flush cs) = taken cs := by
  induction cs with
  | nil => rfl
  | cons c cs ih => simp [events_of, Call.events, engine_input, taken, ih]

theorem drain_trace {σ ω : Type} (D : Deflater σ) (Wr : Writer ω) :
    ∀ (n : Nat) (t t1 : ostreambuf σ ω), ostreambuf.drain D Wr n t = Run.done t1 →
      ∃ cs : List Call, t1.trace = t.trace ++ events_of Z_NO_FLUSH cs ∧
        taken cs = t.next_in ∧ t1.writer_ = sink_after Wr t.writer_ cs ∧
        t1.pbuf = t.pbuf ∧ t1.next_in = [] := by
  intro n
  induction n with
  | zero =>
    intro t t1 ht
    unfold ostreambuf.drain at ht
    split_ifs at ht with h0
    injection ht with ht
    subst ht
    have hn : t.next_in = [] := List.length_eq_zero.mp (by omega)
    exact ⟨[], by simp [events_of], by simp [taken, hn], rfl, rfl, hn⟩
  | succ n ih =>
    intro t t1 ht
    unfold ostreambuf.drain at ht
    split_ifs at ht with h0
    · rw [deflate_write_eq] at ht
      split_ifs at ht
      simp only at ht
      obtain ⟨cs, h1, h2, h3, h4, h5⟩ := ih _ _ ht
      refine ⟨t.call D Z_NO_FLUSH :: cs, ?_, ?_, ?_, h4, h5⟩
      · rw [h1]
        simp [ostreambuf.after, events_of]
      · simp only [taken, h2, ostreambuf.after, ostreambuf.call]
        exact List.take_append_drop _ _
      · rw [h3]
        rfl
    · injection ht with ht
      subst ht
      have hn : t.next_in = [] := List.length_eq_zero.mp (by omega)
      exact ⟨[], by simp [events_of], by simp [taken, hn], rfl, rfl, hn⟩

theorem finish_trace {σ ω : Type} (D : Deflater σ) (Wr : Writer ω) :
    ∀ (n : Nat) (t t1 : ostreambuf σ ω), t.next_in = [] →
      ostreambuf.finish D Wr n t = Run.done t1 →
      ∃ (fs : List Call) (last : Call),
        t1.trace = t.trace ++ events_of Z_FINISH (fs ++ [last]) ∧
        (∀ c ∈ fs, c.ret ≠ Z_STREAM_END) ∧ last.ret = Z_STREAM_END ∧
        (∀ c ∈ fs ++ [last], c.window = []) ∧
        t1.writer_ = sink_after Wr t.writer_ (fs ++ [last]) ∧
        t1.pbuf = t.pbuf ∧ t1.next_in = [] := by
  intro n
  induction n with
  | zero =>
    intro t t1 _ ht
    unfold ostreambuf.finish at ht
    cases ht
  | succ n ih =>
    intro t t1 hn ht
    unfold ostreambuf.finish at ht
    rw [deflate_write_eq] at ht
    split_ifs at ht
    simp only at ht
    have hn1 : (t.after D Wr Z_FINISH).next_in = [] := by
      simp [ostreambuf.after, hn]
    split_ifs at ht with hret
    · obtain ⟨fs, last, h1, h2, h3, h4, h5, h6, h7⟩ := ih _ _ hn1 ht
      refine ⟨t.call D Z_FINISH :: fs, last, ?_, ?_, h3, ?_, ?_, h6, h7⟩
      · rw [h1]
        simp [ostreambuf.after, events_of]
      · intro c hc
        rcases List.mem_cons.mp hc with hc | hc
        · subst hc
          exact hret
        · exact h2 c hc
      · intro c hc
        rw [List.cons_append] at hc
        rcases List.mem_cons.mp hc with hc | hc
        · subst hc
          exact hn
        · exact h4 c hc
      · rw [h5]
        rfl
    · injection ht with ht
      subst ht
      refine ⟨[], t.call D Z_FINISH, ?_, ?_, ?_, ?_, rfl, rfl, hn1⟩
      · simp [ostreambuf.after, events_of]
      · intro c hc
        cases hc
      · exact not_not.mp hret
      · intro c hc
        simp only [List.nil_append, List.mem_singleton] at hc
        subst hc
        exact hn

/-! ## `ostreambuf::sync` -/

/-- C6: a `sync()` that returns, from any state, returns 0 and has made exactly
these calls, in this order: the put area is made the input window; `deflate`
calls with `Z_NO_FLUSH`, each followed by the write of all its output to the
sink, which together take the whole put area; at least one `deflate` call with
`Z_FINISH` and no input, each followed by the write of all its output, of which
the last and only the last returned `Z_STREAM_END`; one `deflateReset`. The
sink has received the outputs in that order, and the put area and the input
window are empty. -/
theorem sync_returns {σ ω : Type} (D : Deflater σ) (Wr : Writer ω) (fuel : Nat)
    (s s1 : ostreambuf σ ω) (v : Int) (h : s.sync D Wr fuel = Run.done (s1, v)) :
    v = 0 ∧ s1.pbuf = [] ∧ s1.next_in = [] ∧
    ∃ (ds fs : List Call) (last : Call) (st : σ),
      s1.trace = s.trace ++ [Event.set_input s.pbuf] ++ events_of Z_NO_FLUSH ds ++
        events_of Z_FINISH (fs ++ [last]) ++ [Event.deflateReset] ∧
      taken ds = s.pbuf ∧
      (∀ c ∈ fs, c.ret ≠ Z_STREAM_END) ∧ last.ret = Z_STREAM_END ∧
      (∀ c ∈ fs ++ [last], c.window = []) ∧
      s1.writer_ = sink_after Wr s.writer_ (ds ++ (fs ++ [last])) ∧
      s1.zstrm_ = D.deflateReset st := by
  unfold ostreambuf.sync at h
  cases ho : s.overflow D Wr fuel eof with
  | done a =>
    obtain ⟨s2, v2⟩ := a
    rw [ho] at h
    obtain ⟨s3, hd, hs2, -⟩ := overflow_done D Wr fuel eof s s2 v2 ho
    obtain ⟨ds, d1, d2, d3, d4, d5⟩ := drain_trace D Wr fuel _ _ hd
    have hn2 : s2.next_in = [] := by rw [hs2]; exact d5
    simp only [hn2, List.length_nil, if_true] at h
    cases hf : ostreambuf.finish D Wr fuel s2 with
    | done s4 =>
      rw [hf] at h
      injection h with h
      injection h with h1 h2
      obtain ⟨fs, last, f1, f2, f3, f4, f5, f6, f7⟩ := finish_trace D Wr fuel _ _ hn2 hf
      subst h1
      refine ⟨h2.symm, ?_, f7, ds, fs, last, s4.zstrm_, ?_, d2, f2, f3, f4, ?_, rfl⟩
      · show s4.pbuf = []
        rw [f6, hs2]
        simp
      · show s4.trace ++ [Event.deflateReset] = _
        rw [f1, hs2]
        simp only [d1, ostreambuf.set_input, List.append_assoc]
      · show s4.writer_ = _
        rw [f5, hs2]
        simp only [d3, ostreambuf.set_input, sink_after, List.foldl_append]
    | thrown e1 => rw [hf] at h; cases h
    | assert_failed => rw [hf] at h; cases h
    | starved => rw [hf] at h; cases h
  | thrown e1 => rw [ho] at h; cases h
  | assert_failed => rw [ho] at h; cases h
  | starved => rw [ho] at h; cases h

/-- C6 at a concrete input: `sync()` on a new stream buffer with the stored codec,
with nothing in the put area, returns after one `Z_FINISH` call and one reset. -/
theorem sync_returns_witness :
    (0 : Int) = 0 ∧ ([] : List Byte) = [] ∧ ([] : List Byte) = [] ∧
    ∃ (ds fs : List Call) (last : Call) (st : Bool),
      [Event.set_input [], Event.deflate 4 [] 1 0 [0], Event.sputn [0] 1, Event.deflateReset]
        = [] ++ [Event.set_input []] ++ events_of Z_NO_FLUSH ds ++
          events_of Z_FINISH (fs ++ [last]) ++ [Event.deflateReset] ∧
      taken ds = [] ∧
      (∀ c ∈ fs, c.ret ≠ Z_STREAM_END) ∧ last.ret = Z_STREAM_END ∧
      (∀ c ∈ fs ++ [last], c.window = []) ∧
      [0] = sink_after stringWriter [] (ds ++ (fs ++ [last])) ∧
      false = stored.deflater.deflateReset st :=
  sync_returns stored.deflater stringWriter 1 (ostreambuf.new stored.deflater [])
    { pbuf := [], next_in := [], zstrm_ := false, writer_ := [0],
      trace := [Event.set_input [], Event.deflate 4 [] 1 0 [0], Event.sputn [0] 1,
        Event.deflateReset] } 0 rfl

/-! ## Accepting bytes -/

theorem overflow_accepted {σ ω : Type} (D : Deflater σ) (Wr : Writer ω) (fuel : Nat) (c : Int)
    (s s1 : ostreambuf σ ω) (v : Int) (x : List Byte) (hx : s.accepted x)
    (h : s.overflow D Wr fuel c = Run.done (s1, v)) :
    handed s1.trace = x ∧ engine_input s1.trace = x ∧ s1.next_in = [] ∧
    drains s1.trace = drains s.trace + 1 ∧
    s1.pbuf = (if c = eof then [] else [to_char_type c]) := by
  obtain ⟨s2, hd, hs, -⟩ := overflow_done D Wr fuel c s s1 v h
  obtain ⟨cs, d1, d2, -, -, d5⟩ := drain_trace D Wr fuel _ _ hd
  obtain ⟨x1, x2, x3, -, -, -⟩ := hx
  subst hs
  simp only [ostreambuf.set_input] at d1 d2
  refine ⟨?_, ?_, d5, ?_, rfl⟩
  · show handed s2.trace = x
    rw [d1, handed_append, handed_append, handed_events_of]
    simp [handed, x1]
  · show engine_input s2.trace = x
    rw [d1, engine_input_append, engine_input_append, engine_input_events_of, d2, x2]
    simp [engine_input, x1]
  · show drains s2.trace = _
    rw [d1, drains_append, drains_append, drains_events_of]
    simp [drains]

theorem sputc_accepted {σ ω : Type} (D : Deflater σ) (Wr : Writer ω) (fuel : Nat) (c : Byte)
    (s s1 : ostreambuf σ ω) (v : Int) (x : List Byte) (hx : s.accepted x)
    (h : s.sputc D Wr fuel c = Run.done (s1, v)) : s1.accepted (x ++ [c]) := by
  unfold ostreambuf.sputc at h
  split_ifs at h with hroom
  · injection h with h
    injection h with h1 h2
    subst h1
    obtain ⟨x1, x2, x3, x4, x5, x6⟩ := hx
    refine ⟨?_, x2, x3, ?_, ?_, ?_⟩
    · simp [← x1]
    · simp only [List.length_append, List.length_singleton]
      omega
    · simp only [List.length_append, List.length_singleton]
      omega
    · intro _
      simp
  · obtain ⟨o1, o2, o3, o4, o5⟩ := overflow_accepted D Wr fuel _ s s1 v x hx h
    obtain ⟨x1, x2, x3, x4, x5, x6⟩ := hx
    have hp : s1.pbuf = [c] := by
      rw [o5, if_neg (to_int_type_ne_eof c), to_char_type_to_int_type]
    refine ⟨by rw [o1, hp], by rw [o2, o1], o3, by rw [hp]; simp [SIZE], ?_, ?_⟩
    · rw [o4, hp]
      simp only [List.length_append, List.length_singleton]
      have : s.pbuf.length = SIZE := by omega
      rw [x5, this]
      ring
    · intro _
      rw [hp]
      simp

theorem sputn_accepted {σ ω : Type} (D : Deflater σ) (Wr : Writer ω) (fuel : Nat) :
    ∀ (cs : List Byte) (s s1 : ostreambuf σ ω) (x : List Byte), s.accepted x →
      ostreambuf.sputn D Wr fuel cs s = Run.done s1 → s1.accepted (x ++ cs) := by
  intro cs
  induction cs with
  | nil =>
    intro s s1 x hx h
    unfold ostreambuf.sputn at h
    injection h with h
    subst h
    simpa using hx
  | cons c cs ih =>
    intro s s1 x hx h
    unfold ostreambuf.sputn at h
    cases hc : s.sputc D Wr fuel c with
    | done a =>
      obtain ⟨s2, v⟩ := a
      rw [hc] at h
      have := ih s2 s1 (x ++ [c]) (sputc_accepted D Wr fuel c s s2 v x hx hc) h
      simpa using this
    | thrown e1 => rw [hc] at h; cases h
    | assert_failed => rw [hc] at h; cases h
    | starved => rw [hc] at h; cases h

theorem new_accepted {σ ω : Type} (D : Deflater σ) (w : ω) :
    (ostreambuf.new D w).accepted [] := by
  refine ⟨rfl, rfl, rfl, by simp [ostreambuf.new], by simp [ostreambuf.new, drains], ?_⟩
  intro h
  cases h

/-- C2: when a new `ostreambuf` has accepted the bytes `x`, the input windows
handed to the engine by the drains so far, concatenated and followed by the
bytes in the put area, are exactly `x`, and the engine has taken exactly what
was handed to it; the number of drains so far is `(|x| - 1) / SIZE`, none for
4096 bytes and one for 4097. After a final drain (`overflow(eof)`) the bytes
handed to and taken by the engine are exactly `x`, in order, the put area is
empty, and one more drain has happened. -/
theorem no_byte_loss {σ ω : Type} (D : Deflater σ) (Wr : Writer ω) (w : ω) (fuel : Nat)
    (x : List Byte) (s : ostreambuf σ ω)
    (h : ostreambuf.sputn D Wr fuel x (ostreambuf.new D w) = Run.done s) :
    handed s.trace ++ s.pbuf = x ∧ engine_input s.trace = handed s.trace ∧
    s.pbuf.length ≤ SIZE ∧ drains s.trace = (x.length - 1) / SIZE ∧
    (∀ (n : Nat) (s1 : ostreambuf σ ω) (v : Int), s.overflow D Wr n eof = Run.done (s1, v) →
      handed s1.trace = x ∧ engine_input s1.trace = x ∧ s1.pbuf = [] ∧
      drains s1.trace = (x.length - 1) / SIZE + 1) := by
  have ha := sputn_accepted D Wr fuel x _ s [] (new_accepted D w) h
  rw [List.nil_append] at ha
  have hdr : drains s.trace = (x.length - 1) / SIZE := by
    obtain ⟨-, -, -, x4, x5, x6⟩ := ha
    unfold SIZE at *
    rcases Nat.eq_zero_or_pos x.length with h0 | h0
    · rw [h0] at x5 ⊢
      omega
    · have := x6 h0
      omega
  refine ⟨ha.1, ha.2.1, ha.2.2.2.1, hdr, ?_⟩
  intro n s1 v ho
  obtain ⟨o1, o2, -, o4, o5⟩ := overflow_accepted D Wr n eof s s1 v x ha ho
  refine ⟨o1, o2, by simpa using o5, by rw [o4, hdr]⟩

/-! ## The write side over a `stringWriter` sink: what a run that returned has done -/

theorem deflate_write_done {σ ω : Type} (D : Deflater σ) (Wr : Writer ω) (flush : Int)
    (s s1 : ostreambuf σ ω) (v : Int) (h : s.deflate_write D Wr flush = Run.done (s1, v)) :
    s1 = s.after D Wr flush ∧ v = (D.deflate s.zstrm_ s.next_in SIZE flush).ret ∧
    ((D.deflate s.zstrm_ s.next_in SIZE flush).ret = Z_OK ∨
      (D.deflate s.zstrm_ s.next_in SIZE flush).ret = Z_STREAM_END ∨
      (D.deflate s.zstrm_ s.next_in SIZE flush).ret = Z_BUF_ERROR) := by
  rw [deflate_write_eq] at h
  split_ifs at h with h1 h2
  injection h with h
  injection h with e1 e2
  refine ⟨e1.symm, e2.symm, ?_⟩
  by_cases a : (D.deflate s.zstrm_ s.next_in SIZE flush).ret = Z_OK
  · exact Or.inl a
  · by_cases b : (D.deflate s.zstrm_ s.next_in SIZE flush).ret = Z_STREAM_END
    · exact Or.inr (Or.inl b)
    · by_cases c : (D.deflate s.zstrm_ s.next_in SIZE flush).ret = Z_BUF_ERROR
      · exact Or.inr (Or.inr c)
      · exact absurd ⟨a, b, c⟩ h1

theorem after_string_writer {σ : Type} (D : Deflater σ) (flush : Int)
    (s : ostreambuf σ (List Byte)) :
    (s.after D stringWriter flush).writer_ =
      s.writer_ ++ (D.deflate s.zstrm_ s.next_in SIZE flush).produced.take SIZE := by
  simp [ostreambuf.after, stringWriter]

theorem drain_session {σ : Type} (D : Deflater σ) (base : List Byte) :
    ∀ (n : Nat) (t t1 : ostreambuf σ (List Byte)) (p z : List Byte),
      ostreambuf.drain D stringWriter n t = Run.done t1 →
      Session D t.zstrm_ p z → t.next_in.length ≤ SIZE → t.writer_ = base ++ z →
      ∃ z1, Session D t1.zstrm_ (p ++ t.next_in) z1 ∧ t1.writer_ = base ++ z1 ∧
        t1.next_in = [] ∧ t1.pbuf = t.pbuf := by
  intro n
  induction n with
  | zero =>
    intro t t1 p z h hs _ hw
    unfold ostreambuf.drain at h
    split_ifs at h with h0
    injection h with h
    subst h
    have hn : t.next_in = [] := List.length_eq_zero.mp (by omega)
    exact ⟨z, by rw [hn, List.append_nil]; exact hs, hw, hn, rfl⟩
  | succ n ih =>
    intro t t1 p z h hs hlen hw
    unfold ostreambuf.drain at h
    split_ifs at h with h0
    · cases hd : t.deflate_write D stringWriter Z_NO_FLUSH with
      | done a =>
        obtain ⟨s1, v⟩ := a
        rw [hd] at h
        simp only at h
        obtain ⟨e1, -, hacc⟩ := deflate_write_done D stringWriter Z_NO_FLUSH t s1 v hd
        subst e1
        have hne : t.next_in ≠ [] := by
          intro e
          rw [e] at h0
          simp at h0
        have hs1 := Session.feed t.next_in hs hne hlen hacc
        have hw1 : (t.after D stringWriter Z_NO_FLUSH).writer_ =
            base ++ (z ++ (D.deflate t.zstrm_ t.next_in SIZE Z_NO_FLUSH).produced.take SIZE) := by
          rw [after_string_writer, hw, List.append_assoc]
        have hlen1 : (t.after D stringWriter Z_NO_FLUSH).next_in.length ≤ SIZE := by
          simp only [ostreambuf.after, List.length_drop]
          omega
        obtain ⟨z1, k1, k2, k3, k4⟩ := ih _ t1 _ _ h hs1 hlen1 hw1
        refine ⟨z1, ?_, k2, k3, k4⟩
        have : (p ++ t.next_in.take (D.deflate t.zstrm_ t.next_in SIZE Z_NO_FLUSH).consumed) ++
            (t.after D stringWriter Z_NO_FLUSH).next_in = p ++ t.next_in := by
          simp only [ostreambuf.after, List.append_assoc, List.take_append_drop]
        rw [← this]
        exact k1
      | thrown e1 => rw [hd] at h; cases h
      | assert_failed => rw [hd] at h; cases h
      | starved => rw [hd] at h; cases h
    · injection h with h
      subst h
      have hn : t.next_in = [] := List.length_eq_zero.mp (by omega)
      exact ⟨z, by rw [hn, List.append_nil]; exact hs, hw, hn, rfl⟩

theorem finish_session {σ : Type} (D : Deflater σ) (base : List Byte) :
    ∀ (n : Nat) (t t1 : ostreambuf σ (List Byte)) (p z : List Byte),
      ostreambuf.finish D stringWriter n t = Run.done t1 → t.next_in = [] →
      Session D t.zstrm_ p z → t.writer_ = base ++ z →
      ∃ (s0 : σ) (z0 : List Byte), Session D s0 p z0 ∧
        (D.deflate s0 [] SIZE Z_FINISH).ret = Z_STREAM_END ∧
        t1.zstrm_ = (D.deflate s0 [] SIZE Z_FINISH).state ∧
        t1.writer_ = base ++ (z0 ++ (D.deflate s0 [] SIZE Z_FINISH).produced.take SIZE) ∧
        t1.next_in = [] ∧ t1.pbuf = t.pbuf := by
  intro n
  induction n with
  | zero =>
    intro t t1 p z h
    unfold ostreambuf.finish at h
    cases h
  | succ n ih =>
    intro t t1 p z h hn hs hw
    unfold ostreambuf.finish at h
    cases hd : t.deflate_write D stringWriter Z_FINISH with
    | done a =>
      obtain ⟨s1, v⟩ := a
      rw [hd] at h
      simp only at h
      obtain ⟨e1, e2, hacc⟩ := deflate_write_done D stringWriter Z_FINISH t s1 v hd
      subst e1
      subst e2
      rw [hn] at hacc
      have hn1 : (t.after D stringWriter Z_FINISH).next_in = [] := by
        simp [ostreambuf.after, hn]
      have hz1 : (t.after D stringWriter Z_FINISH).zstrm_ =
          (D.deflate t.zstrm_ [] SIZE Z_FINISH).state := by
        simp [ostreambuf.after, hn]
      have hw1 : (t.after D stringWriter Z_FINISH).writer_ =
          base ++ (z ++ (D.deflate t.zstrm_ [] SIZE Z_FINISH).produced.take SIZE) := by
        rw [after_string_writer, hw, hn, List.append_assoc]
      rw [hn] at h
      by_cases hend : (D.deflate t.zstrm_ [] SIZE Z_FINISH).ret = Z_STREAM_END
      · rw [if_neg (not_not.mpr hend)] at h
        injection h with h
        subst h
        exact ⟨t.zstrm_, z, hs, hend, hz1, hw1, hn1, rfl⟩
      · rw [if_pos hend] at h
        have hok : (D.deflate t.zstrm_ [] SIZE Z_FINISH).ret = Z_OK ∨
            (D.deflate t.zstrm_ [] SIZE Z_FINISH).ret = Z_BUF_ERROR := by
          rcases hacc with a | a | a
          · exact Or.inl a
          · exact absurd a hend
          · exact Or.inr a
        have hs1 := Session.finish hs hok
        rw [← hz1] at hs1
        obtain ⟨s0, z0, k1, k2, k3, k4, k5, k6⟩ := ih _ t1 _ _ h hn1 hs1 hw1
        exact ⟨s0, z0, k1, k2, k3, k4, k5, k6⟩
    | thrown e1 => rw [hd] at h; cases h
    | assert_failed => rw [hd] at h; cases h
    | starved => rw [hd] at h; cases h

theorem overflow_session {σ : Type} (D : Deflater σ) (n : Nat) (c : Int)
    (s s1 : ostreambuf σ (List Byte)) (v : Int) (base p z x : List Byte)
    (h : s.overflow D stringWriter n c = Run.done (s1, v)) (hw : s.writing D base p z x) :
    ∃ z1, Session D s1.zstrm_ x z1 ∧ s1.writer_ = base ++ z1 ∧ s1.next_in = [] ∧
      s1.pbuf = (if c = eof then [] else [to_char_type c]) := by
  obtain ⟨w1, w2, w3, -, w5⟩ := hw
  obtain ⟨s2, hd, hs, -⟩ := overflow_done D stringWriter n c s s1 v h
  obtain ⟨z1, k1, k2, k3, -⟩ := drain_session D base n s.set_input s2 p z hd w1 w5 w2
  subst hs
  refine ⟨z1, ?_, k2, k3, rfl⟩
  have : p ++ s.set_input.next_in = x := w3
  rw [this] at k1
  exact k1

theorem sputc_session {σ : Type} (D : Deflater σ) (n : Nat) (c : Byte)
    (s s1 : ostreambuf σ (List Byte)) (v : Int) (base p z x : List Byte)
    (h : s.sputc D stringWriter n c = Run.done (s1, v)) (hw : s.writing D base p z x) :
    ∃ p1 z1, s1.writing D base p1 z1 (x ++ [c]) := by
  unfold ostreambuf.sputc at h
  split_ifs at h with hroom
  · injection h with h
    injection h with h1 h2
    subst h1
    obtain ⟨w1, w2, w3, w4, w5⟩ := hw
    refine ⟨p, z, w1, w2, ?_, w4, ?_⟩
    · simp [← w3]
    · simp only [List.length_append, List.length_singleton]
      omega
  · obtain ⟨z1, k1, k2, k3, k4⟩ := overflow_session D n _ s s1 v base p z x h hw
    rw [if_neg (to_int_type_ne_eof c), to_char_type_to_int_type] at k4
    exact ⟨x, z1, k1, k2, by rw [k4], k3, by rw [k4]; simp [SIZE]⟩

theorem sputn_session {σ : Type} (D : Deflater σ) (n : Nat) (base : List Byte) :
    ∀ (cs : List Byte) (s s1 : ostreambuf σ (List Byte)) (p z x : List Byte),
      ostreambuf.sputn D stringWriter n cs s = Run.done s1 → s.writing D base p z x →
      ∃ p1 z1, s1.writing D base p1 z1 (x ++ cs) := by
  intro cs
  induction cs with
  | nil =>
    intro s s1 p z x h hw
    unfold ostreambuf.sputn at h
    injection h with h
    subst h
    exact ⟨p, z, by simpa using hw⟩
  | cons c cs ih =>
    intro s s1 p z x h hw
    unfold ostreambuf.sputn at h
    cases hc : s.sputc D stringWriter n c with
    | done a =>
      obtain ⟨s2, v⟩ := a
      rw [hc] at h
      obtain ⟨p1, z1, k⟩ := sputc_session D n c s s2 v base p z x hc hw
      obtain ⟨p2, z2, j⟩ := ih s2 s1 p1 z1 (x ++ [c]) h k
      exact ⟨p2, z2, by simpa using j⟩
    | thrown e1 => rw [hc] at h; cases h
    | assert_failed => rw [hc] at h; cases h
    | starved => rw [hc] at h; cases h

theorem sync_session {σ : Type} (D : Deflater σ) (n : Nat)
    (s s1 : ostreambuf σ (List Byte)) (v : Int) (base p z x : List Byte)
    (h : s.sync D stringWriter n = Run.done (s1, v)) (hw : s.writing D base p z x) :
    ∃ z1, Frame D x z1 ∧ s1.writing D (base ++ z1) [] [] [] := by
  unfold ostreambuf.sync at h
  cases ho : s.overflow D stringWriter n eof with
  | done a =>
    obtain ⟨s2, v2⟩ := a
    rw [ho] at h
    obtain ⟨z1, k1, k2, k3, k4⟩ := overflow_session D n eof s s2 v2 base p z x ho hw
    simp only [k3, List.length_nil, if_true] at h k4
    cases hf : ostreambuf.finish D stringWriter n s2 with
    | done s3 =>
      rw [hf] at h
      injection h with h
      injection h with h1 h2
      obtain ⟨s0, z0, f1, f2, f3, f4, f5, f6⟩ := finish_session D base n s2 s3 x z1 hf k3 k1 k2
      subst h1
      refine ⟨z0 ++ (D.deflate s0 [] SIZE Z_FINISH).produced.take SIZE, ⟨s0, z0, f1, f2, rfl⟩,
        ?_, ?_, ?_, f5, ?_⟩
      · show Session D (D.deflateReset s3.zstrm_) [] []
        rw [f3]
        exact Session.reset f1 f2
      · show s3.writer_ = _
        rw [f4, List.append_nil]
      · show [] ++ s3.pbuf = []
        rw [f6, k4]
        rfl
      · show s3.pbuf.length ≤ SIZE
        rw [f6, k4]
        simp
    | thrown e1 => rw [hf] at h; cases h
    | assert_failed => rw [hf] at h; cases h
    | starved => rw [hf] at h; cases h
  | thrown e1 => rw [ho] at h; cases h
  | assert_failed => rw [ho] at h; cases h
  | starved => rw [ho] at h; cases h

theorem new_writing {σ : Type} (D : Deflater σ) :
    (ostreambuf.new D ([] : List Byte)).writing D [] [] [] [] :=
  ⟨Session.init, rfl, rfl, rfl, by simp [ostreambuf.new]⟩

/-- Pushing `x` and finalizing, when it returns, has left one frame of `x` in
the sink. -/
theorem compress_frame {σ : Type} (D : Deflater σ) (n : Nat) (x z : List Byte)
    (h : compress D n x = Run.done z) : Frame D x z := by
  unfold compress at h
  cases h1 : ostreambuf.sputn D stringWriter n x (ostreambuf.new D []) with
  | done s =>
    rw [h1] at h
    simp only at h
    obtain ⟨p1, z1, k⟩ := sputn_session D n [] x _ s [] [] [] h1 (new_writing D)
    rw [List.nil_append] at k
    cases h2 : s.sync D stringWriter n with
    | done a =>
      obtain ⟨s1, v⟩ := a
      rw [h2] at h
      injection h with h
      obtain ⟨zf, j1, j2⟩ := sync_session D n s s1 v [] p1 z1 x h2 k
      have : s1.writer_ = zf := by
        rw [j2.2.1]
        simp
      rw [← h, this]
      exact j1
    | thrown e1 => rw [h2] at h; cases h
    | assert_failed => rw [h2] at h; cases h
    | starved => rw [h2] at h; cases h
  | thrown e1 => rw [h1] at h; cases h
  | assert_failed => rw [h1] at h; cases h
  | starved => rw [h1] at h; cases h

/-- Pushing `a`, `sync()`, pushing `b`, `sync()`, when it returns, has left a
frame of `a` followed by a frame of `b` in the sink. -/
theorem compress2_frames {σ : Type} (D : Deflater σ) (n : Nat) (a b z : List Byte)
    (h : compress2 D n a b = Run.done z) :
    ∃ za zb, z = za ++ zb ∧ Frame D a za ∧ Frame D b zb := by
  unfold compress2 at h
  cases h1 : ostreambuf.sputn D stringWriter n a (ostreambuf.new D []) with
  | done s =>
    rw [h1] at h
    simp only at h
    obtain ⟨p1, z1, k⟩ := sputn_session D n [] a _ s [] [] [] h1 (new_writing D)
    rw [List.nil_append] at k
    cases h2 : s.sync D stringWriter n with
    | done a1 =>
      obtain ⟨s1, v⟩ := a1
      rw [h2] at h
      simp only at h
      obtain ⟨za, j1, j2⟩ := sync_session D n s s1 v [] p1 z1 a h2 k
      cases h3 : ostreambuf.sputn D stringWriter n b s1 with
      | done s2 =>
        rw [h3] at h
        simp only at h
        obtain ⟨p3, z3, l⟩ := sputn_session D n _ b s1 s2 [] [] [] h3 j2
        rw [List.nil_append] at l
        cases h4 : s2.sync D stringWriter n with
        | done a2 =>
          obtain ⟨s3, v3⟩ := a2
          rw [h4] at h
          injection h with h
          obtain ⟨zb, m1, m2⟩ := sync_session D n s2 s3 v3 _ p3 z3 b h4 l
          refine ⟨za, zb, ?_, j1, m1⟩
          rw [← h, m2.2.1]
          simp
        | thrown e1 => rw [h4] at h; cases h
        | assert_failed => rw [h4] at h; cases h
        | starved => rw [h4] at h; cases h
      | thrown e1 => rw [h3] at h; cases h
      | assert_failed => rw [h3] at h; cases h
      | starved => rw [h3] at h; cases h
    | thrown e1 => rw [h2] at h; cases h
    | assert_failed => rw [h2] at h; cases h
    | starved => rw [h2] at h; cases h
  | thrown e1 => rw [h1] at h; cases h
  | assert_failed => rw [h1] at h; cases h
  | starved => rw [h1] at h; cases h

/-! ## The write side over a `stringWriter` sink runs to its end -/

theorem deflate_write_string {σ : Type} (D : Deflater σ) (flush : Int)
    (s : ostreambuf σ (List Byte))
    (h : (D.deflate s.zstrm_ s.next_in SIZE flush).ret = Z_OK ∨
      (D.deflate s.zstrm_ s.next_in SIZE flush).ret = Z_STREAM_END ∨
      (D.deflate s.zstrm_ s.next_in SIZE flush).ret = Z_BUF_ERROR) :
    s.deflate_write D stringWriter flush =
      Run.done (s.after D stringWriter flush, (D.deflate s.zstrm_ s.next_in SIZE flush).ret) := by
  rw [deflate_write_eq]
  have h1 : ¬ ((D.deflate s.zstrm_ s.next_in SIZE flush).ret ≠ Z_OK ∧
      (D.deflate s.zstrm_ s.next_in SIZE flush).ret ≠ Z_STREAM_END ∧
      (D.deflate s.zstrm_ s.next_in SIZE flush).ret ≠ Z_BUF_ERROR) := by
    rintro ⟨a, b, c⟩
    rcases h with h | h | h
    · exact a h
    · exact b h
    · exact c h
  rw [if_neg h1]
  simp [stringWriter]

theorem drain_live {σ : Type} (D : Deflater σ) (Live Fin : σ → Prop) (rank : σ → Nat)
    (hD : DeflateLaws D Live Fin rank) :
    ∀ (m k : Nat) (s : ostreambuf σ (List Byte)),
      s.next_in.length = m → rank s.zstrm_ = k → m ≤ SIZE → Live s.zstrm_ →
      ∃ (fuel : Nat) (s1 : ostreambuf σ (List Byte)),
        (∀ n, fuel ≤ n → ostreambuf.drain D stringWriter n s = Run.done s1) ∧
        Live s1.zstrm_ ∧ s1.next_in = [] ∧ s1.pbuf = s.pbuf := by
  obtain ⟨-, hN, -⟩ := hD
  intro m
  induction m using Nat.strong_induction_on with
  | _ m ihm =>
    intro k
    induction k using Nat.strong_induction_on with
    | _ k ihk =>
      intro s hm hk hle hg
      by_cases h0 : s.next_in.length > 0
      · have hne : s.next_in ≠ [] := by
          intro e
          rw [e] at h0
          simp at h0
        obtain ⟨hret, hg1, hprog⟩ := hN s.zstrm_ s.next_in hg hne (by omega)
        have hdw := deflate_write_string D Z_NO_FLUSH s
          (hret.elim Or.inl (fun h => Or.inr (Or.inr h)))
        have key : ∃ (fuel : Nat) (s1 : ostreambuf σ (List Byte)),
            (∀ n, fuel ≤ n → ostreambuf.drain D stringWriter n
              (s.after D stringWriter Z_NO_FLUSH) = Run.done s1) ∧
            Live s1.zstrm_ ∧ s1.next_in = [] ∧
            s1.pbuf = (s.after D stringWriter Z_NO_FLUSH).pbuf := by
          by_cases hc : 0 < (D.deflate s.zstrm_ s.next_in SIZE Z_NO_FLUSH).consumed
          · have hlt : (s.after D stringWriter Z_NO_FLUSH).next_in.length < m := by
              simp only [ostreambuf.after, List.length_drop]
              omega
            exact ihm _ hlt _ _ rfl rfl (by omega) hg1
          · have hr : rank (s.after D stringWriter Z_NO_FLUSH).zstrm_ < k := by
              rcases hprog with hp | hp
              · exact absurd hp hc
              · rw [← hk]
                exact hp
            have hlen : (s.after D stringWriter Z_NO_FLUSH).next_in.length = m := by
              have : (D.deflate s.zstrm_ s.next_in SIZE Z_NO_FLUSH).consumed = 0 := by omega
              simp only [ostreambuf.after, this, List.drop_zero, hm]
            exact ihk _ hr _ hlen rfl hle hg1
        obtain ⟨fuel, s1, k1, k2, k3, k4⟩ := key
        refine ⟨fuel + 1, s1, ?_, k2, k3, k4⟩
        intro n hn
        obtain ⟨n1, rfl⟩ : ∃ n1, n = n1 + 1 := ⟨n - 1, by omega⟩
        unfold ostreambuf.drain
        rw [if_pos h0, hdw]
        exact k1 n1 (by omega)
      · have hn : s.next_in = [] := List.length_eq_zero.mp (by omega)
        refine ⟨0, s, ?_, hg, hn, rfl⟩
        intro n _
        cases n with
        | zero => unfold ostreambuf.drain; rw [if_neg h0]
        | succ n => unfold ostreambuf.drain; rw [if_neg h0]

theorem finish_live {σ : Type} (D : Deflater σ) (Live Fin : σ → Prop) (rank : σ → Nat)
    (hD : DeflateLaws D Live Fin rank) :
    ∀ (k : Nat) (s : ostreambuf σ (List Byte)),
      rank s.zstrm_ = k → s.next_in = [] → (Live s.zstrm_ ∨ Fin s.zstrm_) →
      ∃ (fuel : Nat) (s1 : ostreambuf σ (List Byte)),
        (∀ n, fuel ≤ n → ostreambuf.finish D stringWriter n s = Run.done s1) ∧
        Live (D.deflateReset s1.zstrm_) ∧ s1.next_in = [] ∧ s1.pbuf = s.pbuf := by
  obtain ⟨-, -, hF⟩ := hD
  intro k
  induction k using Nat.strong_induction_on with
  | _ k ihk =>
    intro s hk hn hg
    have hF1 := hF s.zstrm_ hg
    rw [← hn] at hF1
    have hn1 : (s.after D stringWriter Z_FINISH).next_in = [] := by
      simp [ostreambuf.after, hn]
    rcases hF1 with ⟨hend, hlive⟩ | ⟨hret, hg1, hr⟩
    · refine ⟨1, s.after D stringWriter Z_FINISH, ?_, hlive, hn1, rfl⟩
      intro n hn2
      obtain ⟨n1, rfl⟩ : ∃ n1, n = n1 + 1 := ⟨n - 1, by omega⟩
      unfold ostreambuf.finish
      rw [deflate_write_string D Z_FINISH s (Or.inr (Or.inl hend))]
      simp only [hend, ne_eq, not_true_eq_false, if_false]
    · obtain ⟨fuel, s1, k1, k2, k3, k4⟩ :=
        ihk _ (by rw [← hk]; exact hr) (s.after D stringWriter Z_FINISH) rfl hn1 (Or.inr hg1)
      refine ⟨fuel + 1, s1, ?_, k2, k3, k4⟩
      intro n hn2
      obtain ⟨n1, rfl⟩ : ∃ n1, n = n1 + 1 := ⟨n - 1, by omega⟩
      unfold ostreambuf.finish
      rw [deflate_write_string D Z_FINISH s (hret.elim Or.inl (fun h => Or.inr (Or.inr h)))]
      have hne : (D.deflate s.zstrm_ s.next_in SIZE Z_FINISH).ret ≠ Z_STREAM_END := by
        rcases hret with h | h <;> rw [h] <;> decide
      simp only [hne, ne_eq, not_false_eq_true, if_true]
      exact k1 n1 (by omega)

theorem overflow_live {σ : Type} (D : Deflater σ) (Live Fin : σ → Prop) (rank : σ → Nat)
    (hD : DeflateLaws D Live Fin rank) (c : Int) (s : ostreambuf σ (List Byte))
    (hl : Live s.zstrm_) (hp : s.pbuf.length ≤ SIZE) :
    ∃ (fuel : Nat) (s1 : ostreambuf σ (List Byte)),
      (∀ n, fuel ≤ n → s.overflow D stringWriter n c =
        Run.done (s1, if c = eof then eof else to_int_type (to_char_type c))) ∧
      Live s1.zstrm_ ∧ s1.next_in = [] ∧
      s1.pbuf = (if c = eof then [] else [to_char_type c]) := by
  obtain ⟨fuel, s1, k1, k2, k3, -⟩ :=
    drain_live D Live Fin rank hD _ _ s.set_input rfl rfl hp hl
  by_cases hc : c = eof
  · refine ⟨fuel, { s1 with pbuf := [] }, ?_, k2, k3, by simp [hc]⟩
    intro n hn
    unfold ostreambuf.overflow
    rw [k1 n hn]
    simp [hc]
  · refine ⟨fuel, { s1 with pbuf := [to_char_type c] }, ?_, k2, k3, by simp [hc]⟩
    intro n hn
    unfold ostreambuf.overflow
    rw [k1 n hn]
    simp [hc]

theorem sputc_live {σ : Type} (D : Deflater σ) (Live Fin : σ → Prop) (rank : σ → Nat)
    (hD : DeflateLaws D Live Fin rank) (c : Byte) (s : ostreambuf σ (List Byte))
    (hl : Live s.zstrm_) (hp : s.pbuf.length ≤ SIZE) :
    ∃ (fuel : Nat) (s1 : ostreambuf σ (List Byte)),
      (∀ n, fuel ≤ n → s.sputc D stringWriter n c = Run.done (s1, to_int_type c)) ∧
      Live s1.zstrm_ ∧ s1.pbuf.length ≤ SIZE := by
  by_cases hroom : s.pbuf.length < SIZE
  · refine ⟨0, { s with pbuf := s.pbuf ++ [c] }, ?_, hl, ?_⟩
    · intro n _
      unfold ostreambuf.sputc
      rw [if_pos hroom]
    · simp only [List.length_append, List.length_singleton]
      omega
  · obtain ⟨fuel, s1, k1, k2, -, k4⟩ := overflow_live D Live Fin rank hD (to_int_type c) s hl hp
    rw [if_neg (to_int_type_ne_eof c), to_char_type_to_int_type] at k1 k4
    refine ⟨fuel, s1, ?_, k2, by rw [k4]; simp [SIZE]⟩
    intro n hn
    unfold ostreambuf.sputc
    rw [if_neg hroom]
    exact k1 n hn

theorem sputn_live {σ : Type} (D : Deflater σ) (Live Fin : σ → Prop) (rank : σ → Nat)
    (hD : DeflateLaws D Live Fin rank) :
    ∀ (cs : List Byte) (s : ostreambuf σ (List Byte)),
      Live s.zstrm_ → s.pbuf.length ≤ SIZE →
      ∃ (fuel : Nat) (s1 : ostreambuf σ (List Byte)),
        (∀ n, fuel ≤ n → ostreambuf.sputn D stringWriter n cs s = Run.done s1) ∧
        Live s1.zstrm_ ∧ s1.pbuf.length ≤ SIZE := by
  intro cs
  induction cs with
  | nil =>
    intro s hl hp
    refine ⟨0, s, ?_, hl, hp⟩
    intro n _
    rfl
  | cons c cs ih =>
    intro s hl hp
    obtain ⟨f1, s1, k1, k2, k3⟩ := sputc_live D Live Fin rank hD c s hl hp
    obtain ⟨f2, s2, j1, j2, j3⟩ := ih s1 k2 k3
    refine ⟨max f1 f2, s2, ?_, j2, j3⟩
    intro n hn
    unfold ostreambuf.sputn
    rw [k1 n (le_trans (le_max_left _ _) hn)]
    exact j1 n (le_trans (le_max_right _ _) hn)

theorem sync_live {σ : Type} (D : Deflater σ) (Live Fin : σ → Prop) (rank : σ → Nat)
    (hD : DeflateLaws D Live Fin rank) (s : ostreambuf σ (List Byte))
    (hl : Live s.zstrm_) (hp : s.pbuf.length ≤ SIZE) :
    ∃ (fuel : Nat) (s1 : ostreambuf σ (List Byte)),
      (∀ n, fuel ≤ n → s.sync D stringWriter n = Run.done (s1, 0)) ∧
      Live s1.zstrm_ ∧ s1.pbuf.length ≤ SIZE := by
  obtain ⟨f1, s1, k1, k2, k3, k4⟩ := overflow_live D Live Fin rank hD eof s hl hp
  simp only [if_true] at k1 k4
  obtain ⟨f2, s2, j1, j2, -, j4⟩ := finish_live D Live Fin rank hD _ s1 rfl k3 (Or.inl k2)
  refine ⟨max f1 f2,
    { s2 with zstrm_ := D.deflateReset s2.zstrm_, trace := s2.trace ++ [Event.deflateReset] },
    ?_, j2, ?_⟩
  · intro n hn
    unfold ostreambuf.sync
    rw [k1 n (le_trans (le_max_left _ _) hn)]
    simp only [k3, List.length_nil, if_true]
    rw [j1 n (le_trans (le_max_right _ _) hn)]
  · show s2.pbuf.length ≤ SIZE
    rw [j4, k4]
    simp

/-- With a compressor that makes progress, pushing `x` and finalizing returns. -/
theorem compress_total {σ : Type} (D : Deflater σ) (hD : DeflateOK D) (x : List Byte) :
    ∃ (fuel : Nat) (z : List Byte), ∀ n, fuel ≤ n → compress D n x = Run.done z := by
  obtain ⟨Live, Fin, rank, hL⟩ := hD
  obtain ⟨f1, s1, k1, k2, k3⟩ :=
    sputn_live D Live Fin rank hL x (ostreambuf.new D []) hL.1 (by simp [ostreambuf.new])
  obtain ⟨f2, s2, j1, -, -⟩ := sync_live D Live Fin rank hL s1 k2 k3
  refine ⟨max f1 f2, s2.writer_, ?_⟩
  intro n hn
  unfold compress
  rw [k1 n (le_trans (le_max_left _ _) hn)]
  simp only
  rw [j1 n (le_trans (le_max_right _ _) hn)]

theorem refill_inv {τ : Type} (I : Inflater τ) (Str : List Byte → List Byte → Prop)
    (Inv : τ → List Byte → List Byte → List Byte → Prop) (hI : InflateLaws I Str Inv)
    (s : istreambuf τ (List Byte)) (r : List Byte)
    (h : Inv s.zstrm_ s.next_in s.reader_ r) :
    Inv (s.refill stringReader).zstrm_ (s.refill stringReader).next_in
      (s.refill stringReader).reader_ r ∧
    ((s.refill stringReader).next_in ≠ [] ∨ (s.refill stringReader).reader_ = []) := by
  unfold istreambuf.refill
  by_cases h0 : s.next_in.length = 0
  · have hn : s.next_in = [] := List.length_eq_zero.mp h0
    rw [if_pos h0]
    simp only [stringReader]
    rw [hn] at h
    refine ⟨hI.2.1 _ _ _ h, ?_⟩
    by_cases hs : s.reader_ = []
    · right
      simp [hs]
    · left
      intro e
      apply hs
      rcases List.take_eq_nil_iff.mp e with h1 | h1
      · simp [SIZE] at h1
      · exact h1
  · rw [if_neg h0]
    refine ⟨h, Or.inl ?_⟩
    intro e
    rw [e] at h0
    exact h0 rfl

theorem readAll_total {τ : Type} (I : Inflater τ) (Str : List Byte → List Byte → Prop)
    (Inv : τ → List Byte → List Byte → List Byte → Prop) (hI : InflateLaws I Str Inv) :
    ∀ (n : Nat) (s : istreambuf τ (List Byte)) (r : List Byte),
      Inv s.zstrm_ s.next_in s.reader_ r → s.gbuf.length + r.length < n →
      istreambuf.readAll I stringReader n s = Run.done (s.gbuf ++ r) := by
  intro n
  induction n with
  | zero =>
    intro s r _ hlt
    omega
  | succ n ih =>
    intro s r hinv hlt
    unfold istreambuf.readAll
    cases hg : s.gbuf with
    | cons c rest =>
      simp only
      have := ih { s with gbuf := rest } r hinv (by
        simp only
        rw [hg] at hlt
        simp only [List.length_cons] at hlt
        omega)
      rw [this]
      rfl
    | nil =>
      simp only
      obtain ⟨hinv1, hne⟩ := refill_inv I Str Inv hI s r hinv
      obtain ⟨hret, ⟨r1, hr, hinv2⟩, hprog⟩ := hI.2.2 _ _ _ _ hinv1 hne
      obtain ⟨s1, v, hu, u1, u2, u3, u4, u5, u6⟩ := underflow_ok I stringReader s hret
      rw [hu]
      simp only
      by_cases hv : v = eof
      · rw [if_pos hv]
        have hout := u5.mp hv
        rw [u1] at hout
        by_cases hr0 : r = []
        · rw [hr0]
          rfl
        · exact absurd hout (hprog hr0)
      · rw [if_neg hv]
        cases hg1 : s1.gbuf with
        | nil => exact absurd (u5.mpr hg1) hv
        | cons c rest =>
          simp only
          have hinv3 : Inv s1.zstrm_ s1.next_in s1.reader_ r1 := by
            rw [u2, u3, u4]
            exact hinv2
          have hrr : r = c :: (rest ++ r1) := by
            rw [hr, ← u1, hg1]
            rfl
          have := ih { s1 with gbuf := rest } r1 hinv3 (by
            simp only
            rw [hg, hrr] at hlt
            simp only [List.length_cons, List.length_append, List.length_nil] at hlt
            omega)
          rw [this, hrr]
          rfl

/-- With a decompressor that decodes the streams `Str`, pulling from a source
with `Str p src` until end-of-stream returns exactly `p`. -/
theorem decompress_total {τ : Type} (I : Inflater τ) (Str : List Byte → List Byte → Prop)
    (hI : InflateOK I Str) (p src : List Byte) (h : Str p src) (n : Nat) (hn : p.length < n) :
    decompress I n src = Run.done p := by
  obtain ⟨Inv, hL⟩ := hI
  unfold decompress
  have := readAll_total I Str Inv hL n (istreambuf.new I src) p (hL.1 p src h)
    (by simpa [istreambuf.new] using hn)
  rw [this]
  rfl

/-! ## The stored codec keeps the contract -/

namespace stored

theorem enc_append (a b : List Byte) : enc (a ++ b) = enc a ++ enc b := by
  induction a with
  | nil => rfl
  | cons c a ih => simp [enc, ih]

theorem enc_length (a : List Byte) : (enc a).length = 2 * a.length := by
  induction a with
  | nil => rfl
  | cons c a ih =>
    simp only [enc, List.length_cons, ih]
    omega

theorem enc_eq_nil (a : List Byte) (h : enc a = []) : a = [] := by
  cases a with
  | nil => rfl
  | cons c a => simp [enc] at h

theorem take_enc (k : Nat) : ∀ a : List Byte, (enc a).take (2 * k) = enc (a.take k) := by
  induction k with
  | zero => intro a; simp [enc]
  | succ k ih =>
    intro a
    cases a with
    | nil => simp [enc]
    | cons c a =>
      have : 2 * (k + 1) = 2 * k + 1 + 1 := by ring
      rw [this]
      simp only [enc, List.take_succ_cons, ih]

theorem drop_enc (k : Nat) : ∀ a : List Byte, (enc a).drop (2 * k) = enc (a.drop k) := by
  induction k with
  | zero => intro a; simp
  | succ k ih =>
    intro a
    cases a with
    | nil => simp [enc]
    | cons c a =>
      have : 2 * (k + 1) = 2 * k + 1 + 1 := by ring
      rw [this]
      simp only [enc, List.drop_succ_cons, ih]

theorem decode_symbol (b : Byte) (rest : List Byte) (cap : Nat) :
    decode (1 :: b :: rest) (cap + 1) =
      ((decode rest cap).1, (decode rest cap).2.1 + 2, b :: (decode rest cap).2.2.1,
        (decode rest cap).2.2.2) := by
  simp [decode]

theorem decode_enc_end : ∀ (r t : List Byte) (cap : Nat), r.length ≤ cap →
    decode (enc r ++ 0 :: t) cap = (Z_STREAM_END, 2 * r.length + 1, r, true) := by
  intro r
  induction r with
  | nil =>
    intro t cap _
    cases t with
    | nil => simp [enc, decode]
    | cons b t =>
      cases cap with
      | zero => simp [enc, decode]
      | succ cap => simp [enc, decode]
  | cons c r ih =>
    intro t cap h
    obtain ⟨cap1, rfl⟩ : ∃ cap1, cap = cap1 + 1 := ⟨cap - 1, by
      simp only [List.length_cons] at h
      omega⟩
    have h1 : r.length ≤ cap1 := by
      simp only [List.length_cons] at h
      omega
    show decode (1 :: c :: (enc r ++ 0 :: t)) (cap1 + 1) = _
    rw [decode_symbol, ih t cap1 h1]
    simp only [List.length_cons, Prod.mk.injEq, true_and, and_true]
    omega

theorem decode_enc_ok : ∀ (r : List Byte) (cap : Nat), r.length ≤ cap →
    decode (enc r) cap = (Z_OK, 2 * r.length, r, false) := by
  intro r
  induction r with
  | nil =>
    intro cap _
    simp [enc, decode]
  | cons c r ih =>
    intro cap h
    obtain ⟨cap1, rfl⟩ : ∃ cap1, cap = cap1 + 1 := ⟨cap - 1, by
      simp only [List.length_cons] at h
      omega⟩
    have h1 : r.length ≤ cap1 := by
      simp only [List.length_cons] at h
      omega
    show decode (1 :: c :: enc r) (cap1 + 1) = _
    rw [decode_symbol, ih cap1 h1]
    simp only [List.length_cons, Prod.mk.injEq, true_and, and_true]
    omega

theorem deflate_live (w : List Byte) (cap : Nat) (flush : Int) :
    deflater.deflate false w cap flush =
      if flush = Z_FINISH ∧ min w.length (cap / 2) = w.length ∧
          (enc (w.take (min w.length (cap / 2)))).length < cap then
        { ret := Z_STREAM_END, state := true, consumed := min w.length (cap / 2),
          produced := enc (w.take (min w.length (cap / 2))) ++ [0], msg := "" }
      else if min w.length (cap / 2) = 0 then
        { ret := Z_BUF_ERROR, state := false, consumed := 0, produced := [], msg := "" }
      else
        { ret := Z_OK, state := false, consumed := min w.length (cap / 2),
          produced := enc (w.take (min w.length (cap / 2))), msg := "" } :=
  rfl

theorem deflate_laws :
    DeflateLaws deflater (fun s => s = false) (fun _ => False) (fun _ => 0) := by
  refine ⟨rfl, ?_, ?_⟩
  · intro s w hs hw _
    subst hs
    have hpos : 0 < min w.length (SIZE / 2) := by
      have : 0 < w.length := List.length_pos.mpr hw
      simp only [SIZE]
      omega
    have hne : min w.length (SIZE / 2) ≠ 0 := by omega
    have hflush : ¬ (Z_NO_FLUSH = Z_FINISH ∧ min w.length (SIZE / 2) = w.length ∧
        (enc (w.take (min w.length (SIZE / 2)))).length < SIZE) := by
      rintro ⟨h, -⟩
      revert h
      decide
    rw [deflate_live, if_neg hflush, if_neg hne]
    exact ⟨Or.inl rfl, rfl, Or.inl hpos⟩
  · intro s hs
    rcases hs with hs | hs
    · subst hs
      left
      exact ⟨rfl, rfl⟩
    · exact absurd hs id

theorem deflate_finish_empty :
    deflater.deflate false [] SIZE Z_FINISH =
      { ret := Z_STREAM_END, state := true, consumed := 0, produced := [0], msg := "" } :=
  rfl

theorem session_enc (s : Bool) (p z : List Byte) (h : Session deflater s p z) :
    s = false ∧ z = enc p := by
  induction h with
  | init => exact ⟨rfl, rfl⟩
  | reset _ _ _ => exact ⟨rfl, rfl⟩
  | @feed s p z w _ _ _ hret ih =>
    obtain ⟨hs, hz⟩ := ih
    subst hs
    have hflush : ¬ (Z_NO_FLUSH = Z_FINISH ∧ min w.length (SIZE / 2) = w.length ∧
        (enc (w.take (min w.length (SIZE / 2)))).length < SIZE) := by
      rintro ⟨h, -⟩
      revert h
      decide
    rw [deflate_live, if_neg hflush] at hret ⊢
    split_ifs at hret ⊢ with h2
    · refine ⟨rfl, ?_⟩
      simp [hz]
    · refine ⟨rfl, ?_⟩
      have hlen : (enc (w.take (min w.length (SIZE / 2)))).length ≤ SIZE := by
        rw [enc_length, List.length_take]
        simp only [SIZE]
        omega
      show z ++ (enc (w.take (min w.length (SIZE / 2)))).take SIZE =
        enc (p ++ w.take (min w.length (SIZE / 2)))
      rw [List.take_of_length_le hlen, enc_append, hz]
  | @finish s p z _ hret ih =>
    obtain ⟨hs, -⟩ := ih
    subst hs
    rw [deflate_finish_empty] at hret
    rcases hret with h | h
    · exact absurd h (by decide : Z_STREAM_END ≠ Z_OK)
    · exact absurd h (by decide : Z_STREAM_END ≠ Z_BUF_ERROR)

theorem frame_enc (p z : List Byte) (h : Frame deflater p z) : z = enc p ++ [0] := by
  obtain ⟨s, z0, hs, -, hz⟩ := h
  obtain ⟨hs0, hz0⟩ := session_enc s p z0 hs
  subst hs0
  rw [deflate_finish_empty] at hz
  rw [hz, hz0]
  rfl

theorem deflateOK : DeflateOK deflater :=
  ⟨fun s => s = false, fun _ => False, fun _ => 0, deflate_laws⟩

theorem inflate_live (w : List Byte) (cap : Nat) (flush : Int) :
    inflater.inflate false w cap flush =
      if (decode w cap).1 = Z_DATA_ERROR then
        { ret := Z_DATA_ERROR, state := false, consumed := (decode w cap).2.1,
          produced := (decode w cap).2.2.1, msg := "invalid block type" }
      else if (decode w cap).1 = Z_OK ∧ (decode w cap).2.1 = 0 then
        { ret := Z_BUF_ERROR, state := false, consumed := 0, produced := [], msg := "" }
      else
        { ret := (decode w cap).1, state := (decode w cap).2.2.2, consumed := (decode w cap).2.1,
          produced := (decode w cap).2.2.1, msg := "" } :=
  rfl

theorem inflate_symbols (r : List Byte) (h : r.length ≤ SIZE) (hne : r ≠ []) (flush : Int) :
    inflater.inflate false (enc r) SIZE flush =
      { ret := Z_OK, state := false, consumed := 2 * r.length, produced := r, msg := "" } := by
  have hpos : 0 < r.length := List.length_pos.mpr hne
  rw [inflate_live, decode_enc_ok r SIZE h]
  have h1 : ¬ (Z_OK = Z_DATA_ERROR) := by decide
  have h2 : ¬ (Z_OK = Z_OK ∧ 2 * r.length = 0) := by
    rintro ⟨-, h⟩
    omega
  rw [if_neg h1, if_neg h2]

theorem inflate_end (r t : List Byte) (h : r.length ≤ SIZE) (flush : Int) :
    inflater.inflate false (enc r ++ 0 :: t) SIZE flush =
      { ret := Z_STREAM_END, state := true, consumed := 2 * r.length + 1, produced := r,
        msg := "" } := by
  rw [inflate_live, decode_enc_end r t SIZE h]
  have h1 : ¬ (Z_STREAM_END = Z_DATA_ERROR) := by decide
  have h2 : ¬ (Z_STREAM_END = Z_OK ∧ 2 * r.length + 1 = 0) := by
    rintro ⟨-, h⟩
    omega
  rw [if_neg h1, if_neg h2]

theorem inflate_laws (Str : List Byte → List Byte → Prop)
    (hStr : ∀ p src, Str p src → ∃ t, src = enc p ++ 0 :: t) :
    InflateLaws inflater Str Inv := by
  refine ⟨?_, ?_, ?_⟩
  · intro p src h
    obtain ⟨t, ht⟩ := hStr p src h
    exact Or.inr (Or.inl ⟨rfl, [], p, t, rfl, rfl, ht, by simp⟩)
  · intro s src r h
    rcases h with ⟨hs, hr⟩ | ⟨hs, r1, r2, t, hr, hw, hsrc, -⟩ | ⟨hs, t, hw, -⟩
    · exact Or.inl ⟨hs, hr⟩
    · have hr1 : r1 = [] := enc_eq_nil r1 hw.symm
      subst hr1
      rw [List.nil_append] at hr
      subst hr
      by_cases hlen : SIZE / 2 ≤ r.length
      · refine Or.inr (Or.inl ⟨hs, r.take (SIZE / 2), r.drop (SIZE / 2), t,
          (List.take_append_drop _ _).symm, ?_, ?_, ?_⟩)
        · rw [hsrc, List.take_append_of_le_length (by rw [enc_length]; simp only [SIZE] at *; omega)]
          exact take_enc (SIZE / 2) r
        · rw [hsrc, List.drop_append_of_le_length (by rw [enc_length]; simp only [SIZE] at *; omega)]
          rw [show SIZE = 2 * (SIZE / 2) from by decide, drop_enc]
          rfl
        · rw [List.length_take]
          simp only [SIZE]
          omega
      · refine Or.inr (Or.inr ⟨hs, (0 :: t).take (SIZE - (enc r).length) |>.tail, ?_, ?_⟩)
        · rw [hsrc, List.take_append_eq_append_take,
            List.take_of_length_le (by rw [enc_length]; simp only [SIZE] at *; omega)]
          have : SIZE - (enc r).length = (SIZE - (enc r).length - 1) + 1 := by
            rw [enc_length]
            simp only [SIZE] at *
            omega
          rw [this]
          simp
        · simp only [SIZE] at *
          omega
    · exact absurd hw.symm (by simp)
  · intro s w src r h hne
    rcases h with ⟨hs, hr⟩ | ⟨hs, r1, r2, t, hr, hw, hsrc, hlen⟩ | ⟨hs, t, hw, hlen⟩
    · subst hs
      subst hr
      refine ⟨Or.inr rfl, ⟨[], rfl, Or.inl ⟨rfl, rfl⟩⟩, fun h => absurd rfl h⟩
    · subst hs
      have hw0 : w ≠ [] := by
        rcases hne with h | h
        · exact h
        · rw [hsrc] at h
          simp at h
      have hr1 : r1 ≠ [] := by
        intro e
        apply hw0
        rw [hw, e]
        rfl
      rw [hw, inflate_symbols r1 hlen hr1]
      refine ⟨Or.inl rfl, ⟨r2, ?_, Or.inr (Or.inl ⟨rfl, [], r2, t, rfl, ?_, hsrc, by simp⟩)⟩, ?_⟩
      · show r = r1.take SIZE ++ r2
        rw [List.take_of_length_le hlen]
        exact hr
      · show (enc r1).drop (2 * r1.length) = enc []
        rw [← enc_length, List.drop_length]
        rfl
      · intro _
        show r1.take SIZE ≠ []
        rw [List.take_of_length_le hlen]
        exact hr1
    · subst hs
      rw [hw, inflate_end r t hlen]
      refine ⟨Or.inr rfl, ⟨[], ?_, Or.inl ⟨rfl, rfl⟩⟩, ?_⟩
      · show r = r.take SIZE ++ []
        rw [List.take_of_length_le hlen, List.append_nil]
      · intro h
        show r.take SIZE ≠ []
        rw [List.take_of_length_le hlen]
        exact h

theorem inflateOK_frame : InflateOK inflater (Frame deflater) := by
  refine ⟨Inv, inflate_laws _ ?_⟩
  intro p src h
  exact ⟨[], frame_enc p src h⟩

theorem inflateOK_frameThen : InflateOK inflater (FrameThen deflater) := by
  refine ⟨Inv, inflate_laws _ ?_⟩
  rintro p src ⟨z, q, y, hz, hy, hsrc⟩
  refine ⟨y, ?_⟩
  rw [hsrc, frame_enc p z hz]
  simp

end stored

/-! ## Round trip and concatenation -/

/-- C2 at a concrete input: 4097 bytes pushed into a new stream buffer with the
stored codec are accepted; one drain has happened, the 4096 bytes handed over
and the one byte in the put area are the input, and after the final drain all
4097 bytes have been handed to and taken by the engine, in two drains. -/
theorem no_byte_loss_witness :
    ∃ (fuel : Nat) (s : ostreambuf Bool (List Byte)),
      ostreambuf.sputn stored.deflater stringWriter fuel (List.replicate 4097 7)
        (ostreambuf.new stored.deflater []) = Run.done s ∧
      handed s.trace ++ s.pbuf = List.replicate 4097 7 ∧
      engine_input s.trace = handed s.trace ∧ s.pbuf.length ≤ SIZE ∧
      drains s.trace = ((List.replicate 4097 (7 : Byte)).length - 1) / SIZE ∧
      (∀ (n : Nat) (s1 : ostreambuf Bool (List Byte)) (v : Int),
        s.overflow stored.deflater stringWriter n eof = Run.done (s1, v) →
        handed s1.trace = List.replicate 4097 7 ∧ engine_input s1.trace = List.replicate 4097 7 ∧
        s1.pbuf = [] ∧
        drains s1.trace = ((List.replicate 4097 (7 : Byte)).length - 1) / SIZE + 1) := by
  obtain ⟨fuel, s, h, -, -⟩ := sputn_live stored.deflater _ _ _ stored.deflate_laws
    (List.replicate 4097 7) (ostreambuf.new stored.deflater []) rfl (by simp [ostreambuf.new])
  exact ⟨fuel, s, h fuel le_rfl,
    no_byte_loss stored.deflater stringWriter [] fuel (List.replicate 4097 7) s (h fuel le_rfl)⟩

/-- C1: for a decompressor that decodes the frames of the compressor, and for
every byte sequence `x` (of any length, so also 0, 1, 4095, 4096 and 4097):
whenever pushing `x` through a new `ostreambuf` and finalizing it with `sync()`
returns, the bytes `z` that reached the sink are one frame of `x`, and pulling
from a new `istreambuf` over `z` until end-of-stream returns exactly `x`; and
with a compressor that makes progress the write side does return. -/
theorem roundtrip_exact {σ τ : Type} (D : Deflater σ) (I : Inflater τ)
    (hI : InflateOK I (Frame D)) (x : List Byte) :
    (∀ n z, compress D n x = Run.done z →
      Frame D x z ∧ (∀ m, x.length < m → decompress I m z = Run.done x) ∧
      (x.length < n → roundtrip D I n x = Run.done x)) ∧
    (DeflateOK D → ∃ (fuel : Nat) (z : List Byte), Frame D x z ∧ ∀ n, fuel ≤ n →
      compress D n x = Run.done z ∧ decompress I n z = Run.done x ∧
      roundtrip D I n x = Run.done x) := by
  have part : ∀ n z, compress D n x = Run.done z →
      Frame D x z ∧ (∀ m, x.length < m → decompress I m z = Run.done x) ∧
      (x.length < n → roundtrip D I n x = Run.done x) := by
    intro n z h
    have hf := compress_frame D n x z h
    have hd : ∀ m, x.length < m → decompress I m z = Run.done x :=
      fun m hm => decompress_total I (Frame D) hI x z hf m hm
    refine ⟨hf, hd, ?_⟩
    intro hn
    unfold roundtrip
    rw [h]
    exact hd n hn
  refine ⟨part, ?_⟩
  intro hD
  obtain ⟨f1, z, k1⟩ := compress_total D hD x
  have hz := k1 f1 le_rfl
  refine ⟨max f1 (x.length + 1), z, (part f1 z hz).1, ?_⟩
  intro n hn
  have h1 : f1 ≤ n := le_trans (le_max_left _ _) hn
  have h2 : x.length < n := lt_of_lt_of_le (Nat.lt_succ_self _) (le_trans (le_max_right _ _) hn)
  have hp := part n z (k1 n h1)
  exact ⟨k1 n h1, hp.2.1 n h2, hp.2.2 h2⟩

/-- C1 at concrete inputs: with the stored codec the round trip of three bytes,
evaluated, and the round trip of 4097 bytes. -/
theorem roundtrip_exact_witness :
    (Frame stored.deflater [5, 6, 7] [1, 5, 1, 6, 1, 7, 0] ∧
      (∀ m, ([5, 6, 7] : List Byte).length < m →
        decompress stored.inflater m [1, 5, 1, 6, 1, 7, 0] = Run.done [5, 6, 7]) ∧
      (([5, 6, 7] : List Byte).length < 4 →
        roundtrip stored.deflater stored.inflater 4 [5, 6, 7] = Run.done [5, 6, 7])) ∧
    (∃ (fuel : Nat) (z : List Byte), Frame stored.deflater (List.replicate 4097 7) z ∧
      ∀ n, fuel ≤ n →
        compress stored.deflater n (List.replicate 4097 7) = Run.done z ∧
        decompress stored.inflater n z = Run.done (List.replicate 4097 7) ∧
        roundtrip stored.deflater stored.inflater n (List.replicate 4097 7)
          = Run.done (List.replicate 4097 7)) :=
  ⟨(roundtrip_exact stored.deflater stored.inflater stored.inflateOK_frame [5, 6, 7]).1 4
      [1, 5, 1, 6, 1, 7, 0] (by decide),
    (roundtrip_exact stored.deflater stored.inflater stored.inflateOK_frame
      (List.replicate 4097 7)).2 stored.deflateOK⟩

/-- Reading two frames back through `istreambuf`: for a decompressor that decodes
a frame followed by a second frame, pulling from a new `istreambuf` over the
sink left by writing `a`, `sync()`, writing `b`, `sync()` returns `a`, the
content of the first frame; the engine is never reset on the read side. -/
theorem istreambuf_reads_first_frame {σ τ : Type} (D : Deflater σ) (I : Inflater τ)
    (hI : InflateOK I (FrameThen D)) (a b : List Byte) (n : Nat) (z : List Byte)
    (h : compress2 D n a b = Run.done z) (hn : a.length < n) :
    decompress I n z = Run.done a ∧ roundtrip2 D I n a b = Run.done a := by
  obtain ⟨za, zb, hz, ha, hb⟩ := compress2_frames D n a b z h
  have hd := decompress_total I (FrameThen D) hI a z ⟨za, b, zb, ha, hb, hz⟩ n hn
  refine ⟨hd, ?_⟩
  unfold roundtrip2
  rw [h]
  exact hd

/-- The same with the stored codec, evaluated: `[5]` and `[6]` read back as
`[5]`. -/
theorem stored_reads_first_frame :
    roundtrip2 stored.deflater stored.inflater 4 [5] [6] = Run.done [5] := by
  decide

end wtl.zlib
